import Mathlib

/-!
Verification of the task-pipeline orchestration engine
(`src/tasks/registry.py`, `src/tasks/base.py`, `src/tasks/models.py`,
`src/tasks/executor.py`, `src/pipelines/storage.py`).

The Python code is shallowly embedded: dictionaries keyed by strings become
either association lists (where insertion order is observable, e.g. the
`task_executions` dict) or functions `String → Option _` (where only lookup
and overwrite semantics are observable, e.g. the data/files/metadata maps of
the carrier).  Python exceptions become `Except` results.  Recursive
traversals take an explicit fuel argument; the development proves that the
fuel chosen by the top-level entry points is never exhausted.
-/

set_option maxHeartbeats 1000000

namespace Pipeline

/-- Task identifiers are strings, as in the Python source. -/
abbrev Id := String

/-- A Python runtime value as far as the engine inspects it: the executor
only ever asks `isinstance(value, str)` / `value.startswith("$")`; every
other value is opaque.  Opaque values are indexed by a natural number. -/
inductive PyVal where
  | str (s : String)
  | other (n : Nat)
deriving DecidableEq, Repr

/-- Status of a task execution (`TaskStatus` in `models.py`). -/
inductive TaskStatus where
  | pending
  | running
  | completed
  | failed
  | skipped
deriving DecidableEq, Repr

/-- The `.value` string of a `TaskStatus` member. -/
def TaskStatus.value : TaskStatus → String
  | .pending => "pending"
  | .running => "running"
  | .completed => "completed"
  | .failed => "failed"
  | .skipped => "skipped"

/-- The `TaskStatus(s)` enum constructor: succeeds exactly on the five
member values, raises (here: `none`) otherwise. -/
def TaskStatus.ofValue (s : String) : Option TaskStatus :=
  if s = "pending" then some .pending
  else if s = "running" then some .running
  else if s = "completed" then some .completed
  else if s = "failed" then some .failed
  else if s = "skipped" then some .skipped
  else none

/-- Metadata the engine reads from a task (`TaskMetadata` in `models.py`),
restricted to the fields the engine inspects: declared dependencies and the
`.value` strings of the declared input kinds. -/
structure TaskMeta where
  dependencies : List Id
  input_types : List String
deriving DecidableEq, Repr

/-- The registry's `_metadata` dict: task_id → metadata, as an association
list (first match wins on lookup, mirroring dict key uniqueness). -/
abbrev Registry := List (Id × TaskMeta)

/-- Dictionary lookup `self._metadata.get(task_id)`. -/
def lookupMeta (reg : Registry) (t : Id) : Option TaskMeta :=
  (reg.find? (fun p => p.1 = t)).map (·.2)

/-- The check `task_id in self._metadata`. -/
def isRegistered (reg : Registry) (t : Id) : Bool :=
  (lookupMeta reg t).isSome

/-- Errors raised by `resolve_dependencies`.  The Python code raises
`ValueError` with a message; the two message shapes are modelled as
structured errors carrying the data interpolated into the message.
`fuelOut` is an artifact of the embedding's explicit fuel and is proved
unreachable for the fuel used by `resolve_dependencies`. -/
inductive ResolveErr where
  | notRegistered (t : Id)
  | circular (remaining : List Id)
  | fuelOut
deriving DecidableEq, Repr

/-- State threaded through `resolve_dependencies`' graph construction:
`all_tasks` (a Python set, kept here as an insertion-ordered duplicate-free
list), `graph` (dep → dependent edge list, in append order) and `in_degree`
(a defaultdict(int), kept as a total function defaulting to 0; Python ints
are modelled by `Int`). -/
structure BuildState where
  allTasks : List Id
  graph : List (Id × Id)
  inDeg : Id → Int

/-- The `for dep in metadata.dependencies` loop body of `add_dependencies`
(registry.py lines 139-144): newly seen dependencies are added to
`all_tasks` and recursed into (`step` is the recursive call, carrying the
remaining fuel), then the edge `(dep, task_id)` is appended and
`in_degree[task_id]` incremented. -/
def addDepsList (step : Id → BuildState → Except ResolveErr BuildState) (t : Id) :
    List Id → BuildState → Except ResolveErr BuildState
  | [], st => .ok st
  | d :: ds, st =>
    match (if d ∈ st.allTasks then .ok st
           else step d { st with allTasks := st.allTasks ++ [d] } :
            Except ResolveErr BuildState) with
    | .error e => .error e
    | .ok st1 =>
      addDepsList step t ds
        { st1 with
          graph := st1.graph ++ [(d, t)]
          inDeg := fun x => if x = t then st1.inDeg x + 1 else st1.inDeg x }

/-- The recursive `add_dependencies` closure of
`TaskRegistry.resolve_dependencies` (registry.py lines 134-144): raise if
the task is unregistered, otherwise walk its dependency list. -/
def addDeps (reg : Registry) : Nat → Id → BuildState → Except ResolveErr BuildState
  | 0, _, _ => .error .fuelOut
  | fuel + 1, t, st =>
    match lookupMeta reg t with
    | none => .error (.notRegistered t)
    | some m => addDepsList (addDeps reg fuel) t m.dependencies st

/-- One step of the inner `for dependent in graph[current]` loop of Kahn's
algorithm (registry.py lines 164-167): decrement the dependent's in-degree
and enqueue it exactly when the in-degree reaches 0. -/
def decDeps : List Id → (Id → Int) → List Id → ((Id → Int) × List Id)
  | [], deg, q => (deg, q)
  | d :: ds, deg, q =>
    let deg1 : Id → Int := fun x => if x = d then deg x - 1 else deg x
    decDeps ds deg1 (if deg1 d = 0 then q ++ [d] else q)

/-- The `while queue` loop of Kahn's algorithm (registry.py lines 159-167).
Returns `none` on fuel exhaustion (proved unreachable for the fuel chosen by
`resolve_dependencies`). -/
def kahnLoop (E : List (Id × Id)) : Nat → List Id → (Id → Int) → List Id → Option (List Id)
  | _, [], _, acc => some acc
  | 0, _ :: _, _, _ => none
  | fuel + 1, c :: q, deg, acc =>
    let ds := (E.filter (fun e => e.1 = c)).map (·.2)
    let p := decDeps ds deg q
    kahnLoop E fuel p.2 p.1 (acc ++ [c])

/-- The `for task_id in target_tasks: add_dependencies(task_id)` loop
(registry.py lines 147-148). -/
def buildAll (reg : Registry) : List Id → BuildState → Except ResolveErr BuildState
  | [], st => .ok st
  | t :: ts, st =>
    match addDeps reg (reg.length + 2) t st with
    | .error e => .error e
    | .ok st1 => buildAll reg ts st1

/-- The full `TaskRegistry.resolve_dependencies` (registry.py lines
115-175): build the dependency closure and edge list, run Kahn's algorithm,
and raise the circular-dependency error when not every task got ordered.
The initial `all_tasks = set(target_tasks)` is modelled by `dedup`; the
fuel arguments are large enough to be unreachable (proved below). -/
def resolve_dependencies (reg : Registry) (target_tasks : List Id) : Except ResolveErr (List Id) :=
  let init : BuildState := ⟨target_tasks.dedup, [], fun _ => 0⟩
  match buildAll reg target_tasks init with
  | .error e => .error e
  | .ok st =>
    -- Python lines 151-153 initialize in_degree[t] = 0 for absent keys; with
    -- the total-function representation this is a no-op.
    let queue := st.allTasks.filter (fun t => st.inDeg t = 0)
    match kahnLoop st.graph (st.allTasks.length + 1) queue st.inDeg [] with
    | none => .error .fuelOut
    | some execution_order =>
      if execution_order.length ≠ st.allTasks.length then
        .error (.circular (st.allTasks.filter (fun t => t ∉ execution_order)))
      else
        .ok execution_order

/-- Direct dependency relation induced by a registry: `u` depends on `d`
when `u`'s registered metadata names `d` in `dependencies`. -/
def DependsOn (reg : Registry) (u d : Id) : Prop :=
  ∃ m, lookupMeta reg u = some m ∧ d ∈ m.dependencies

/-- The transitive dependency closure of a request: the requested ids plus
everything reachable from them through declared dependencies. -/
inductive InClosure (reg : Registry) (targets : List Id) : Id → Prop where
  | base {t : Id} : t ∈ targets → InClosure reg targets t
  | step {u d : Id} : InClosure reg targets u → DependsOn reg u d → InClosure reg targets d

/-- A dependency cycle through `x` whose nodes all satisfy `S`: a chain of
`DependsOn` steps from `x` back to `x`. -/
def OnCycle (reg : Registry) (S : Id → Prop) (x : Id) : Prop :=
  ∃ xs, List.Chain (DependsOn reg) x (xs ++ [x]) ∧ S x ∧ ∀ y ∈ xs, S y

/-- A dependency cycle exists among the nodes satisfying `S`. -/
def HasCycle (reg : Registry) (S : Id → Prop) : Prop :=
  ∃ x, OnCycle reg S x

/-! ### Counting helpers for in-degrees -/

/-- Number of edges of `E` whose target is `x`. -/
def countIn (E : List (Id × Id)) (x : Id) : Nat :=
  (E.filter (fun e => e.2 = x)).length

/-- Number of edges of `E` whose target is `x` and whose source is in `acc`. -/
def countFrom (E : List (Id × Id)) (acc : List Id) (x : Id) : Nat :=
  (E.filter (fun e => e.1 ∈ acc ∧ e.2 = x)).length

theorem length_filter_le_of_imp {α : Type} (l : List α) (p q : α → Bool)
    (hpq : ∀ x, p x = true → q x = true) :
    (l.filter p).length ≤ (l.filter q).length := by
  induction l with
  | nil => simp
  | cons a t ih =>
    by_cases hp : p a = true
    · simp [List.filter_cons, hp, hpq a hp]
      omega
    · simp only [List.filter_cons]
      rw [if_neg hp]
      by_cases hq : q a = true
      · rw [if_pos hq]
        simpa using Nat.le_succ_of_le ih
      · rw [if_neg hq]
        exact ih

theorem length_filter_lt_of_imp {α : Type} (l : List α) (p q : α → Bool) (d : α)
    (hd : d ∈ l) (hpq : ∀ x, p x = true → q x = true)
    (hqd : q d = true) (hpd : ¬ p d = true) :
    (l.filter p).length < (l.filter q).length := by
  induction l with
  | nil => simp at hd
  | cons a t ih =>
    rcases List.mem_cons.mp hd with rfl | hdt
    · simp only [List.filter_cons, if_neg hpd, if_pos hqd, List.length_cons]
      exact Nat.lt_succ_of_le (length_filter_le_of_imp t p q hpq)
    · have h := ih hdt
      simp only [List.filter_cons]
      by_cases hp : p a = true
      · rw [if_pos hp, if_pos (hpq a hp)]
        simpa using h
      · rw [if_neg hp]
        by_cases hq : q a = true
        · rw [if_pos hq]
          simp only [List.length_cons]
          omega
        · rw [if_neg hq]
          exact h

theorem countFrom_le_countIn (E : List (Id × Id)) (acc : List Id) (x : Id) :
    countFrom E acc x ≤ countIn E x := by
  apply length_filter_le_of_imp
  intro e he
  simp only [decide_eq_true_eq] at he
  simp [he.2]

theorem countFrom_nil (E : List (Id × Id)) (x : Id) : countFrom E [] x = 0 := by
  simp [countFrom]

theorem edge_source_mem_of_le (E : List (Id × Id)) (acc : List Id) (x d : Id)
    (hge : countIn E x ≤ countFrom E acc x) (he : (d, x) ∈ E) : d ∈ acc := by
  by_contra hd
  have hlt : countFrom E acc x < countIn E x := by
    apply length_filter_lt_of_imp E _ _ (d, x) he
    · intro e hh
      simp only [decide_eq_true_eq] at hh
      simp [hh.2]
    · simp
    · simp [hd]
  omega

theorem countFrom_lt_exists (E : List (Id × Id)) (acc : List Id) (x : Id)
    (hlt : countFrom E acc x < countIn E x) : ∃ d, (d, x) ∈ E ∧ d ∉ acc := by
  by_contra hall
  push_neg at hall
  have : countIn E x ≤ countFrom E acc x := by
    unfold countIn countFrom
    have : E.filter (fun e => e.2 = x) = E.filter (fun e => e.1 ∈ acc ∧ e.2 = x) := by
      apply List.filter_congr
      intro e he
      by_cases hx : e.2 = x
      · have : e.1 ∈ acc := by
          have := hall e.1 (by cases e; simpa [hx] using (hx ▸ he : _))
          exact this
        simp [hx, this]
      · simp [hx]
    rw [this]
  omega

theorem filter_cons_length {α : Type} (p : α → Bool) (a : α) (t : List α) :
    ((a :: t).filter p).length = (if p a = true then 1 else 0) + (t.filter p).length := by
  by_cases h : p a = true
  · simp [List.filter_cons, h]
    omega
  · simp [List.filter_cons, h]

theorem if_one_split (b1 b2 b3 : Bool) (hb : b1 = (b2 || b3))
    (hdisj : ¬ (b2 = true ∧ b3 = true)) :
    ((if b1 = true then 1 else 0) : Nat)
      = (if b2 = true then 1 else 0) + (if b3 = true then 1 else 0) := by
  cases b2 <;> cases b3 <;> simp_all

theorem countFrom_append_single (E : List (Id × Id)) (acc : List Id) (c x : Id)
    (hc : c ∉ acc) :
    countFrom E (acc ++ [c]) x
      = countFrom E acc x + (E.filter (fun e => e.1 = c ∧ e.2 = x)).length := by
  induction E with
  | nil => simp [countFrom]
  | cons e t ih =>
    unfold countFrom at *
    rw [filter_cons_length, filter_cons_length, filter_cons_length]
    have hb : (decide (e.1 ∈ acc ++ [c] ∧ e.2 = x))
        = (decide (e.1 ∈ acc ∧ e.2 = x) || decide (e.1 = c ∧ e.2 = x)) := by
      by_cases hx : e.2 = x <;> by_cases h1 : e.1 ∈ acc <;> by_cases h2 : e.1 = c <;>
        simp [hx, h1, h2, List.mem_append]
    have hdisj : ¬ (decide (e.1 ∈ acc ∧ e.2 = x) = true ∧ decide (e.1 = c ∧ e.2 = x) = true) := by
      simp only [decide_eq_true_eq]
      rintro ⟨⟨ha, _⟩, ⟨hb2, _⟩⟩
      exact hc (hb2 ▸ ha)
    rw [if_one_split _ _ _ hb hdisj, ih]
    omega

theorem countIn_append_single (E : List (Id × Id)) (a b x : Id) :
    countIn (E ++ [(a, b)]) x = countIn E x + (if b = x then 1 else 0) := by
  unfold countIn
  rw [List.filter_append]
  by_cases h : b = x <;> simp [h]

/-! ### Postconditions of the graph-building phase -/

/-- Task `u` has been fully visited by `add_dependencies`: all its declared
dependencies are in `all_tasks` and all its incoming edges are in `graph`. -/
def Processed (reg : Registry) (st : BuildState) (u : Id) : Prop :=
  ∃ m, lookupMeta reg u = some m ∧
    ∀ d ∈ m.dependencies, d ∈ st.allTasks ∧ (d, u) ∈ st.graph

/-- An edge of the built graph is sound: it comes from a declared dependency
and both endpoints are in `all_tasks`. -/
def EdgeOK (reg : Registry) (st : BuildState) (e : Id × Id) : Prop :=
  DependsOn reg e.2 e.1 ∧ e.1 ∈ st.allTasks ∧ e.2 ∈ st.allTasks

/-- The recorded in-degree of every node equals the number of edges of the
built graph pointing at it. -/
def DegSync (st : BuildState) : Prop :=
  ∀ x, st.inDeg x = (countIn st.graph x : Int)

/-- Facts preserved by every `add_dependencies` call from state `st` to
state `st2`. -/
def AddDepsPost (reg : Registry) (st st2 : BuildState) : Prop :=
  (∀ x ∈ st.allTasks, x ∈ st2.allTasks) ∧
  (∀ e ∈ st.graph, e ∈ st2.graph) ∧
  (∀ u ∈ st2.allTasks, u ∈ st.allTasks ∨ Processed reg st2 u) ∧
  (∀ e ∈ st2.graph, e ∈ st.graph ∨ EdgeOK reg st2 e) ∧
  (st.allTasks.Nodup → st2.allTasks.Nodup) ∧
  (DegSync st → DegSync st2)

theorem Processed.mono_state {reg : Registry} {st st2 : BuildState} {u : Id}
    (h : Processed reg st u)
    (ha : ∀ x ∈ st.allTasks, x ∈ st2.allTasks)
    (hg : ∀ e ∈ st.graph, e ∈ st2.graph) : Processed reg st2 u := by
  obtain ⟨m, hm, hall⟩ := h
  exact ⟨m, hm, fun d hd => ⟨ha d (hall d hd).1, hg _ (hall d hd).2⟩⟩

theorem EdgeOK.mono_tasks {reg : Registry} {st st2 : BuildState} {e : Id × Id}
    (h : EdgeOK reg st e)
    (ha : ∀ x ∈ st.allTasks, x ∈ st2.allTasks) : EdgeOK reg st2 e :=
  ⟨h.1, ha _ h.2.1, ha _ h.2.2⟩

theorem AddDepsPost.refl (reg : Registry) (st : BuildState) : AddDepsPost reg st st :=
  ⟨fun _ h => h, fun _ h => h, fun _ h => Or.inl h, fun _ h => Or.inl h, id, id⟩

theorem AddDepsPost.trans {reg : Registry} {st1 st2 st3 : BuildState}
    (h12 : AddDepsPost reg st1 st2) (h23 : AddDepsPost reg st2 st3) :
    AddDepsPost reg st1 st3 := by
  obtain ⟨a12, g12, p12, e12, n12, d12⟩ := h12
  obtain ⟨a23, g23, p23, e23, n23, d23⟩ := h23
  refine ⟨fun x h => a23 x (a12 x h), fun e h => g23 e (g12 e h), ?_, ?_,
    fun h => n23 (n12 h), fun h => d23 (d12 h)⟩
  · intro u hu
    rcases p23 u hu with h2 | hp
    · rcases p12 u h2 with h1 | hp
      · exact Or.inl h1
      · exact Or.inr (hp.mono_state a23 g23)
    · exact Or.inr hp
  · intro e he
    rcases e23 e he with h2 | hok
    · rcases e12 e h2 with h1 | hok
      · exact Or.inl h1
      · exact Or.inr (hok.mono_tasks a23)
    · exact Or.inr hok

/-- Appending one edge `(d, t)` and bumping `in_degree[t]` preserves the
building invariants when the edge is a declared dependency of `t` with both
endpoints already collected. -/
theorem AddDepsPost.step_edge {reg : Registry} {st : BuildState} {d t : Id}
    (hdep : DependsOn reg t d) (hd : d ∈ st.allTasks) (ht : t ∈ st.allTasks) :
    AddDepsPost reg st
      { st with graph := st.graph ++ [(d, t)]
                inDeg := fun x => if x = t then st.inDeg x + 1 else st.inDeg x } := by
  refine ⟨fun x h => h, fun e h => List.mem_append_left _ h, fun u hu => Or.inl hu, ?_, id, ?_⟩
  · intro e he
    rcases List.mem_append.mp he with h | h
    · exact Or.inl h
    · simp only [List.mem_singleton] at h
      subst h
      exact Or.inr ⟨hdep, hd, ht⟩
  · intro hsync x
    simp only [DegSync] at *
    rw [countIn_append_single]
    by_cases hx : x = t
    · subst hx
      rw [if_pos rfl, if_pos rfl, hsync]
      push_cast
      ring
    · rw [if_neg hx, if_neg (fun h => hx h.symm), hsync]
      push_cast
      ring

/-- Specification satisfied by every fuel-instance of `add_dependencies`:
state facts are preserved, the visited task ends up fully processed, and
membership in any dependency-closed collection containing the initial tasks
and the visited task is preserved. -/
def StepSpec (reg : Registry) (step : Id → BuildState → Except ResolveErr BuildState) : Prop :=
  ∀ t st st2, step t st = .ok st2 → t ∈ st.allTasks →
    AddDepsPost reg st st2 ∧ Processed reg st2 t ∧
    (∀ C : Id → Prop, (∀ u d, C u → DependsOn reg u d → C d) →
      (∀ u ∈ st.allTasks, C u) → C t → ∀ u ∈ st2.allTasks, C u)

/-- Postconditions of a successful run of the `for dep in
metadata.dependencies` loop over the suffix `ds` of `t`'s dependencies. -/
theorem addDepsList_spec (reg : Registry)
    (step : Id → BuildState → Except ResolveErr BuildState) (hstep : StepSpec reg step)
    (t : Id) (m : TaskMeta) :
    ∀ (ds : List Id) (st st2 : BuildState),
    addDepsList step t ds st = .ok st2 →
    t ∈ st.allTasks → lookupMeta reg t = some m → (∀ d ∈ ds, d ∈ m.dependencies) →
    AddDepsPost reg st st2 ∧ (∀ d ∈ ds, d ∈ st2.allTasks ∧ (d, t) ∈ st2.graph) ∧
    (∀ C : Id → Prop, (∀ u d, C u → DependsOn reg u d → C d) →
      (∀ u ∈ st.allTasks, C u) → C t → ∀ u ∈ st2.allTasks, C u) := by
  intro ds
  induction ds with
  | nil =>
    intro st st2 hok _ _ _
    rw [addDepsList] at hok
    cases hok
    exact ⟨AddDepsPost.refl reg st, by simp, fun C _ hall _ => hall⟩
  | cons d ds ih =>
    intro st st2 hok hmem hm hds
    rw [addDepsList] at hok
    have hdep : DependsOn reg t d := ⟨m, hm, hds d (List.mem_cons_self d ds)⟩
    by_cases hd : d ∈ st.allTasks
    · rw [if_pos hd] at hok
      set stMid : BuildState :=
        { st with graph := st.graph ++ [(d, t)]
                  inDeg := fun x => if x = t then st.inDeg x + 1 else st.inDeg x } with hstMid
      have hstepE : AddDepsPost reg st stMid := AddDepsPost.step_edge hdep hd hmem
      have hrec := ih stMid st2 hok hmem hm
        (fun x hx => hds x (List.mem_cons_of_mem d hx))
      refine ⟨hstepE.trans hrec.1, ?_, ?_⟩
      · intro x hx
        rcases List.mem_cons.mp hx with rfl | hx
        · exact ⟨hrec.1.1 x hd, hrec.1.2.1 _ (List.mem_append_right _ (List.mem_singleton_self _))⟩
        · exact hrec.2.1 x hx
      · intro C hC hall hCt
        exact hrec.2.2 C hC hall hCt
    · rw [if_neg hd] at hok
      set stAdd : BuildState := { st with allTasks := st.allTasks ++ [d] } with hstAdd
      match hrun : step d stAdd with
      | .error e => rw [hrun] at hok; simp at hok
      | .ok st1 =>
        rw [hrun] at hok
        have hdmem : d ∈ stAdd.allTasks := List.mem_append_right _ (List.mem_singleton_self _)
        have hspec := hstep d stAdd st1 hrun hdmem
        -- compose the facts from `st` through `stAdd` to `st1` by hand:
        -- the intermediate state `stAdd` has `d` collected but unprocessed.
        have ha1 : ∀ x ∈ st.allTasks, x ∈ st1.allTasks :=
          fun x hx => hspec.1.1 x (List.mem_append_left _ hx)
        have hg1 : ∀ e ∈ st.graph, e ∈ st1.graph := fun e he => hspec.1.2.1 e he
        have hcomp : AddDepsPost reg st st1 := by
          refine ⟨ha1, hg1, ?_, ?_, ?_, fun h => hspec.1.2.2.2.2.2 h⟩
          · intro u hu
            rcases hspec.1.2.2.1 u hu with h | hp
            · rcases List.mem_append.mp h with h | h
              · exact Or.inl h
              · simp only [List.mem_singleton] at h
                subst h
                exact Or.inr hspec.2.1
            · exact Or.inr hp
          · intro e he
            rcases hspec.1.2.2.2.1 e he with h | hok2
            · exact Or.inl h
            · exact Or.inr hok2
          · intro hnd
            apply hspec.1.2.2.2.2.1
            simpa using List.Nodup.append hnd (List.nodup_singleton d)
              (by simpa using hd)
        have htmem1 : t ∈ st1.allTasks := ha1 t hmem
        have hdmem1 : d ∈ st1.allTasks := hspec.1.1 d hdmem
        set stMid : BuildState :=
          { st1 with graph := st1.graph ++ [(d, t)]
                     inDeg := fun x => if x = t then st1.inDeg x + 1 else st1.inDeg x }
          with hstMid
        have hstepE : AddDepsPost reg st1 stMid := AddDepsPost.step_edge hdep hdmem1 htmem1
        have hrec := ih stMid st2 hok htmem1 hm
          (fun x hx => hds x (List.mem_cons_of_mem d hx))
        refine ⟨(hcomp.trans hstepE).trans hrec.1, ?_, ?_⟩
        · intro x hx
          rcases List.mem_cons.mp hx with rfl | hx
          · exact ⟨hrec.1.1 x hdmem1,
              hrec.1.2.1 _ (List.mem_append_right _ (List.mem_singleton_self _))⟩
          · exact hrec.2.1 x hx
        · intro C hC hall hCt
          have hCd : C d := hC t d hCt hdep
          have hallAdd : ∀ u ∈ stAdd.allTasks, C u := by
            intro u hu
            rcases List.mem_append.mp hu with h | h
            · exact hall u h
            · simp only [List.mem_singleton] at h
              exact h ▸ hCd
          have hall1 : ∀ u ∈ st1.allTasks, C u := hspec.2.2 C hC hallAdd hCd
          exact hrec.2.2 C hC hall1 hCt

/-- Every fuel-instance of `add_dependencies` satisfies the step
specification. -/
theorem addDeps_spec (reg : Registry) : ∀ fuel : Nat, StepSpec reg (addDeps reg fuel) := by
  intro fuel
  induction fuel with
  | zero =>
    intro t st st2 hok _
    simp [addDeps] at hok
  | succ fuel ih =>
    intro t st st2 hok hmem
    rw [addDeps] at hok
    match hm : lookupMeta reg t with
    | none => rw [hm] at hok; simp at hok
    | some m =>
      rw [hm] at hok
      have h := addDepsList_spec reg (addDeps reg fuel) ih t m m.dependencies st st2 hok hmem hm
        (fun _ hd => hd)
      exact ⟨h.1, ⟨m, hm, h.2.1⟩, h.2.2⟩

/-! ### Fuel sufficiency for the graph-building phase -/

/-- The distinct registered task ids. -/
def regIds (reg : Registry) : List Id := (reg.map (·.1)).dedup

/-- Number of registered ids not yet collected into `all_tasks`: the
termination measure of `add_dependencies`. -/
def freshBound (reg : Registry) (st : BuildState) : Nat :=
  ((regIds reg).filter (fun x => x ∉ st.allTasks)).length

theorem isRegistered_iff {reg : Registry} {t : Id} :
    isRegistered reg t = true ↔ ∃ m, lookupMeta reg t = some m := by
  unfold isRegistered
  cases h : lookupMeta reg t <;> simp [h]

theorem mem_regIds_of_registered {reg : Registry} {t : Id}
    (h : isRegistered reg t = true) : t ∈ regIds reg := by
  rw [isRegistered_iff] at h
  obtain ⟨m, hm⟩ := h
  unfold lookupMeta at hm
  rw [Option.map_eq_some'] at hm
  obtain ⟨p, hp, _⟩ := hm
  have hmem := List.mem_of_find?_eq_some hp
  have heq : p.1 = t := by
    have := List.find?_some hp
    simpa using this
  rw [regIds, List.mem_dedup]
  exact heq ▸ List.mem_map_of_mem (·.1) hmem

theorem freshBound_le_length (reg : Registry) (st : BuildState) :
    freshBound reg st ≤ reg.length := by
  calc freshBound reg st ≤ (regIds reg).length :=
        (List.filter_sublist _).length_le
    _ ≤ (reg.map (·.1)).length := (List.dedup_sublist _).length_le
    _ = reg.length := List.length_map _ _

theorem freshBound_anti {reg : Registry} {st st2 : BuildState}
    (h : ∀ x ∈ st.allTasks, x ∈ st2.allTasks) :
    freshBound reg st2 ≤ freshBound reg st := by
  apply length_filter_le_of_imp
  intro x hx
  simp only [decide_eq_true_eq] at *
  exact fun hmem => hx (h x hmem)

theorem freshBound_lt {reg : Registry} {st : BuildState} {d : Id}
    (hreg : isRegistered reg d = true) (hd : d ∉ st.allTasks) :
    freshBound reg { st with allTasks := st.allTasks ++ [d] } < freshBound reg st := by
  apply length_filter_lt_of_imp _ _ _ d (mem_regIds_of_registered hreg)
  · intro x hx
    simp only [decide_eq_true_eq, List.mem_append] at *
    exact fun hmem => hx (Or.inl hmem)
  · simpa using hd
  · simp

/-- With all closure members registered and enough fuel, the dependency
loop cannot fail. -/
theorem addDepsList_ok (reg : Registry) (targets : List Id)
    (step : Id → BuildState → Except ResolveErr BuildState) (fuel : Nat)
    (hstep : StepSpec reg step)
    (hstepok : ∀ d st, InClosure reg targets d → freshBound reg st + 2 ≤ fuel →
      ∃ st2, step d st = .ok st2)
    (hclos : ∀ x, InClosure reg targets x → isRegistered reg x = true)
    (t : Id) (m : TaskMeta)
    (ht : InClosure reg targets t) (hm : lookupMeta reg t = some m) :
    ∀ (ds : List Id) (st : BuildState), (∀ d ∈ ds, d ∈ m.dependencies) →
    freshBound reg st + 1 ≤ fuel →
    ∃ st2, addDepsList step t ds st = .ok st2 := by
  intro ds
  induction ds with
  | nil =>
    intro st _ _
    exact ⟨st, by rw [addDepsList]⟩
  | cons d ds ih =>
    intro st hds hfuel
    rw [addDepsList]
    have hdC : InClosure reg targets d :=
      .step ht ⟨m, hm, hds d (List.mem_cons_self d ds)⟩
    by_cases hd : d ∈ st.allTasks
    · rw [if_pos hd]
      exact ih _ (fun x hx => hds x (List.mem_cons_of_mem d hx)) hfuel
    · rw [if_neg hd]
      have hlt := freshBound_lt (hclos d hdC) hd
      obtain ⟨st1, h1⟩ := hstepok d { st with allTasks := st.allTasks ++ [d] } hdC (by omega)
      rw [h1]
      have hsub := (hstep d _ st1 h1
        (List.mem_append_right _ (List.mem_singleton_self _))).1.1
      have hle : freshBound reg st1 ≤
          freshBound reg { st with allTasks := st.allTasks ++ [d] } :=
        freshBound_anti hsub
      exact ih _ (fun x hx => hds x (List.mem_cons_of_mem d hx))
        (by simp only [freshBound] at *; omega)

/-- With all closure members registered and enough fuel,
`add_dependencies` cannot fail. -/
theorem addDeps_ok (reg : Registry) (targets : List Id)
    (hclos : ∀ x, InClosure reg targets x → isRegistered reg x = true) :
    ∀ (fuel : Nat) (t : Id) (st : BuildState), InClosure reg targets t →
    freshBound reg st + 2 ≤ fuel →
    ∃ st2, addDeps reg fuel t st = .ok st2 := by
  intro fuel
  induction fuel with
  | zero =>
    intro t st _ hfuel
    omega
  | succ fuel ih =>
    intro t st ht hfuel
    rw [addDeps]
    obtain ⟨m, hm⟩ := isRegistered_iff.mp (hclos t ht)
    rw [hm]
    exact addDepsList_ok reg targets (addDeps reg fuel) fuel (addDeps_spec reg fuel)
      (fun d st2 hd hf => ih d st2 hd hf) hclos t m ht hm m.dependencies st
      (fun _ h => h) (by omega)

/-! ### Composition over the whole target list -/

theorem buildAll_spec (reg : Registry) (ts : List Id) (st st2 : BuildState)
    (hok : buildAll reg ts st = .ok st2)
    (hts : ∀ t ∈ ts, t ∈ st.allTasks) :
    AddDepsPost reg st st2 ∧ (∀ t ∈ ts, Processed reg st2 t) ∧
    (∀ C : Id → Prop, (∀ u d, C u → DependsOn reg u d → C d) →
      (∀ u ∈ st.allTasks, C u) → ∀ u ∈ st2.allTasks, C u) := by
  induction ts generalizing st with
  | nil =>
    rw [buildAll] at hok
    cases hok
    exact ⟨AddDepsPost.refl reg _, by simp, fun C _ hall => hall⟩
  | cons t ts ih =>
    rw [buildAll] at hok
    match h1 : addDeps reg (reg.length + 2) t st with
    | .error e => rw [h1] at hok; simp at hok
    | .ok st1 =>
      rw [h1] at hok
      have htmem : t ∈ st.allTasks := hts t (List.mem_cons_self t ts)
      have hspec := addDeps_spec reg _ t st st1 h1 htmem
      have hrec := ih st1 hok (fun x hx => hspec.1.1 x (hts x (List.mem_cons_of_mem t hx)))
      refine ⟨hspec.1.trans hrec.1, ?_, ?_⟩
      · intro x hx
        rcases List.mem_cons.mp hx with rfl | hx
        · exact hspec.2.1.mono_state hrec.1.1 hrec.1.2.1
        · exact hrec.2.1 x hx
      · intro C hC hall
        exact hrec.2.2 C hC (hspec.2.2 C hC hall (hall t htmem))

theorem buildAll_ok (reg : Registry) (targets : List Id) (ts : List Id) (st : BuildState)
    (hclos : ∀ x, InClosure reg targets x → isRegistered reg x = true)
    (hInC : ∀ t ∈ ts, InClosure reg targets t) :
    ∃ st2, buildAll reg ts st = .ok st2 := by
  induction ts generalizing st with
  | nil => exact ⟨st, by rw [buildAll]⟩
  | cons t ts ih =>
    rw [buildAll]
    obtain ⟨st1, h1⟩ := addDeps_ok reg targets hclos (reg.length + 2) t st
      (hInC t (List.mem_cons_self t ts))
      (by have := freshBound_le_length reg st; omega)
    rw [h1]
    exact ih st1 (fun x hx => hInC x (List.mem_cons_of_mem t hx))

/-! ### Invariants of Kahn's algorithm -/

/-- Number of occurrences of `x` in a list of ids. -/
def occ (x : Id) (l : List Id) : Nat := (l.filter (fun y => y = x)).length

theorem occ_nil (x : Id) : occ x [] = 0 := rfl

theorem occ_cons (x d : Id) (ds : List Id) :
    occ x (d :: ds) = (if d = x then 1 else 0) + occ x ds := by
  unfold occ
  rw [filter_cons_length]
  by_cases h : d = x <;> simp [h]

/-- Occurrences of `x` among the dependents of `c` equal the number of
`(c, x)` edges. -/
theorem occ_depList (E : List (Id × Id)) (c x : Id) :
    occ x ((E.filter (fun e => e.1 = c)).map (·.2))
      = (E.filter (fun e => e.1 = c ∧ e.2 = x)).length := by
  induction E with
  | nil => rfl
  | cons e t ih =>
    by_cases h1 : e.1 = c
    · by_cases h2 : e.2 = x
      · simp only [List.filter_cons, decide_eq_true_eq]
        rw [if_pos (by simpa using h1), if_pos (by simp [h1, h2])]
        simp only [List.map_cons, List.length_cons, occ_cons]
        rw [if_pos h2]
        omega
      · simp only [List.filter_cons, decide_eq_true_eq]
        rw [if_pos (by simpa using h1), if_neg (by simp [h2])]
        simp only [List.map_cons, occ_cons]
        rw [if_neg h2]
        simpa using ih
    · simp only [List.filter_cons, decide_eq_true_eq]
      rw [if_neg (by simpa using h1), if_neg (by simp [h1])]
      exact ih

/-- The elements of `l` are in topological position relative to the edge
list `E`, given that the elements of `pre` already came earlier: every
element's in-edges originate in `pre` or in earlier elements of `l`. -/
def OrderedFrom (E : List (Id × Id)) : List Id → List Id → Prop
  | _, [] => True
  | pre, x :: rest => (∀ d, (d, x) ∈ E → d ∈ pre) ∧ OrderedFrom E (pre ++ [x]) rest

theorem OrderedFrom.append_one {E : List (Id × Id)} {pre l : List Id} {c : Id}
    (h : OrderedFrom E pre l) (hc : ∀ d, (d, c) ∈ E → d ∈ pre ++ l) :
    OrderedFrom E pre (l ++ [c]) := by
  induction l generalizing pre with
  | nil =>
    refine ⟨fun d hd => by simpa using hc d hd, trivial⟩
  | cons x rest ih =>
    obtain ⟨hx, hrest⟩ := h
    refine ⟨hx, ih hrest ?_⟩
    intro d hd
    have := hc d hd
    simpa [List.append_assoc] using this

theorem OrderedFrom.split {E : List (Id × Id)} {pre a1 a2 : List Id} {u : Id}
    (h : OrderedFrom E pre (a1 ++ u :: a2)) :
    ∀ d, (d, u) ∈ E → d ∈ pre ++ a1 := by
  induction a1 generalizing pre with
  | nil => intro d hd; simpa using h.1 d hd
  | cons x rest ih =>
    obtain ⟨_, hrest⟩ := h
    intro d hd
    have := ih hrest d hd
    simpa [List.append_assoc] using this

/-- Loop invariant of the outer `while queue` loop: `acc` is the output so
far, `q` the pending queue, `deg` the current in-degree table. -/
structure KahnInv (E : List (Id × Id)) (N : List Id) (q acc : List Id)
    (deg : Id → Int) : Prop where
  nodup : (acc ++ q).Nodup
  subN : ∀ x ∈ acc ++ q, x ∈ N
  sync : ∀ x, deg x = (countIn E x : Int) - (countFrom E acc x : Int)
  ready : ∀ x ∈ N, deg x = 0 → x ∈ acc ++ q
  seen_nonpos : ∀ x ∈ acc ++ q, deg x ≤ 0
  unseen_pos : ∀ x ∈ N, x ∉ acc ++ q → 1 ≤ deg x
  ordered : OrderedFrom E [] acc

/-- Invariant of the inner decrement loop, with `ds` the edges (given by
target) of the just-popped node still to be processed and `acc1` already
containing that node. -/
structure DecInv (E : List (Id × Id)) (N : List Id) (q acc1 : List Id)
    (deg : Id → Int) (ds : List Id) : Prop where
  nodup : (acc1 ++ q).Nodup
  subN : ∀ x ∈ acc1 ++ q, x ∈ N
  sync : ∀ x, deg x = (countIn E x : Int) - (countFrom E acc1 x : Int) + (occ x ds : Int)
  ready : ∀ x ∈ N, deg x = 0 → x ∈ acc1 ++ q
  seen_nonpos : ∀ x ∈ acc1 ++ q, deg x ≤ 0
  unseen_pos : ∀ x ∈ N, x ∉ acc1 ++ q → 1 ≤ deg x

theorem decDeps_inv {E : List (Id × Id)} {N acc1 : List Id} :
    ∀ (ds : List Id) (deg : Id → Int) (q : List Id),
    DecInv E N q acc1 deg ds → (∀ x ∈ ds, x ∈ N) →
    DecInv E N (decDeps ds deg q).2 acc1 (decDeps ds deg q).1 [] := by
  intro ds
  induction ds with
  | nil =>
    intro deg q h _
    exact h
  | cons d ds ih =>
    intro deg q h hmem
    have hdN : d ∈ N := hmem d (List.mem_cons_self d ds)
    rw [decDeps]
    set deg1 : Id → Int := fun x => if x = d then deg x - 1 else deg x with hdeg1
    have hdeg1_le : ∀ x, deg1 x ≤ deg x := by
      intro x
      by_cases hx : x = d <;> simp [hdeg1, hx]
    apply ih _ _ ?_ (fun x hx => hmem x (List.mem_cons_of_mem d hx))
    by_cases hz : deg1 d = 0
    · rw [if_pos hz]
      have hdnotin : d ∉ acc1 ++ q := by
        intro hin
        have := h.seen_nonpos d hin
        have : deg1 d ≤ -1 := by simp [hdeg1]; omega
        omega
      refine ⟨?_, ?_, ?_, ?_, ?_, ?_⟩
      · rw [← List.append_assoc]
        rw [List.nodup_append]
        exact ⟨h.nodup, List.nodup_singleton d,
          fun a ha hb => by simp at hb; exact hdnotin (hb ▸ ha)⟩
      · intro x hx
        rw [← List.append_assoc] at hx
        rcases List.mem_append.mp hx with hx | hx
        · exact h.subN x hx
        · simp at hx
          exact hx ▸ hdN
      · intro x
        have hs := h.sync x
        rw [occ_cons] at hs
        by_cases hx : x = d
        · subst hx
          simp only [hdeg1, if_pos rfl]
          rw [if_pos rfl] at hs
          omega
        · simp only [hdeg1, if_neg hx]
          rw [if_neg (fun hh => hx hh.symm)] at hs
          omega
      · intro x hxN hx0
        rw [← List.append_assoc]
        by_cases hx : x = d
        · subst hx
          exact List.mem_append_right _ (List.mem_singleton_self _)
        · have hdx : deg x = 0 := by
            have := hx0
            simp only [hdeg1, if_neg hx] at this
            exact this
          exact List.mem_append_left _ (h.ready x hxN hdx)
      · intro x hx
        rw [← List.append_assoc] at hx
        rcases List.mem_append.mp hx with hh | hh
        · exact le_trans (hdeg1_le x) (h.seen_nonpos x hh)
        · simp at hh
          subst hh
          omega
      · intro x hxN hx
        rw [← List.append_assoc] at hx
        have hxne : x ≠ d := by
          intro hh
          subst hh
          exact hx (List.mem_append_right _ (List.mem_singleton_self _))
        have hxnot : x ∉ acc1 ++ q := by
          intro hh
          rcases List.mem_append.mp hh with h1 | h1
          · exact hx (List.mem_append_left _ (List.mem_append_left _ h1))
          · exact hx (List.mem_append_left _ (List.mem_append_right _ h1))
        have := h.unseen_pos x hxN hxnot
        simp only [hdeg1, if_neg hxne]
        omega
    · rw [if_neg hz]
      refine ⟨h.nodup, h.subN, ?_, ?_, ?_, ?_⟩
      · intro x
        have hs := h.sync x
        rw [occ_cons] at hs
        by_cases hx : x = d
        · subst hx
          simp only [hdeg1, if_pos rfl]
          rw [if_pos rfl] at hs
          omega
        · simp only [hdeg1, if_neg hx]
          rw [if_neg (fun hh => hx hh.symm)] at hs
          omega
      · intro x hxN hx0
        have hxne : x ≠ d := by
          intro hh
          subst hh
          exact hz hx0
        have : deg x = 0 := by
          simp only [hdeg1, if_neg hxne] at hx0
          exact hx0
        exact h.ready x hxN this
      · intro x hx
        exact le_trans (hdeg1_le x) (h.seen_nonpos x hx)
      · intro x hxN hx
        by_cases hxd : x = d
        · subst hxd
          have := h.unseen_pos x hxN hx
          simp only [hdeg1, if_pos rfl]
          simp only [hdeg1, if_pos rfl] at hz
          omega
        · have := h.unseen_pos x hxN hx
          simp only [hdeg1, if_neg hxd]
          omega

/-- Popping `c` off the queue re-establishes the decrement-loop invariant
with `c` appended to the output and `c`'s out-edges pending. -/
theorem kahn_pop_inv {E : List (Id × Id)} {N q acc : List Id} {deg : Id → Int} {c : Id}
    (h : KahnInv E N (c :: q) acc deg) :
    DecInv E N q (acc ++ [c]) deg ((E.filter (fun e => e.1 = c)).map (·.2)) := by
  have hassoc : (acc ++ [c]) ++ q = acc ++ (c :: q) := by
    rw [List.append_assoc]
    rfl
  have hcnotacc : c ∉ acc := by
    intro hc
    have hnd := h.nodup
    rw [List.nodup_append] at hnd
    exact hnd.2.2 hc (List.mem_cons_self c q)
  refine ⟨?_, ?_, ?_, ?_, ?_, ?_⟩
  · rw [hassoc]
    exact h.nodup
  · intro x hx
    rw [hassoc] at hx
    exact h.subN x hx
  · intro x
    have hs := h.sync x
    rw [countFrom_append_single E acc c x hcnotacc, occ_depList]
    push_cast
    push_cast at hs
    omega
  · intro x hxN h0
    rw [hassoc]
    exact h.ready x hxN h0
  · intro x hx
    rw [hassoc] at hx
    exact h.seen_nonpos x hx
  · intro x hxN hx
    rw [hassoc] at hx
    exact h.unseen_pos x hxN hx

/-- The popped node's in-edges all originate in the output so far, so the
output stays topologically ordered. -/
theorem kahn_pop_ordered {E : List (Id × Id)} {N q acc : List Id} {deg : Id → Int} {c : Id}
    (h : KahnInv E N (c :: q) acc deg) :
    OrderedFrom E [] (acc ++ [c]) := by
  apply h.ordered.append_one
  intro d hd
  have hcmem : c ∈ acc ++ c :: q := List.mem_append_right _ (List.mem_cons_self c q)
  have hle := h.seen_nonpos c hcmem
  have hs := h.sync c
  have hcnt : countIn E c ≤ countFrom E acc c := by omega
  simpa using edge_source_mem_of_le E acc c d hcnt hd

/-- Any node of `N` missing from a finished output has an in-edge from
another missing node of `N`. -/
theorem kahn_final {E : List (Id × Id)} {N acc : List Id} {deg : Id → Int}
    (hE : ∀ e ∈ E, e.1 ∈ N ∧ e.2 ∈ N)
    (h : KahnInv E N [] acc deg) :
    ∀ x ∈ N, x ∉ acc → ∃ d, (d, x) ∈ E ∧ d ∈ N ∧ d ∉ acc := by
  intro x hxN hxacc
  have hx : x ∉ acc ++ ([] : List Id) := by simpa using hxacc
  have h1 := h.unseen_pos x hxN hx
  have hs := h.sync x
  have hlt : countFrom E acc x < countIn E x := by omega
  obtain ⟨d, hd, hdacc⟩ := countFrom_lt_exists E acc x hlt
  exact ⟨d, hd, (hE _ hd).1, hdacc⟩

/-- Master specification of the Kahn loop: with the invariant and enough
fuel, it returns a duplicate-free, topologically ordered sublist of `N`, and
every node it failed to order has an in-edge from another unordered node. -/
theorem kahnLoop_spec (E : List (Id × Id)) (N : List Id)
    (hE : ∀ e ∈ E, e.1 ∈ N ∧ e.2 ∈ N) :
    ∀ (fuel : Nat) (q : List Id) (deg : Id → Int) (acc : List Id),
    KahnInv E N q acc deg →
    N.length + 1 ≤ fuel + acc.length →
    ∃ res, kahnLoop E fuel q deg acc = some res ∧
      res.Nodup ∧ (∀ x ∈ res, x ∈ N) ∧ OrderedFrom E [] res ∧
      (∀ x ∈ N, x ∉ res → ∃ d, (d, x) ∈ E ∧ d ∈ N ∧ d ∉ res) := by
  intro fuel
  induction fuel with
  | zero =>
    intro q deg acc h hfuel
    match q with
    | [] =>
      refine ⟨acc, by rw [kahnLoop], by simpa using h.nodup,
        fun x hx => h.subN x (by simpa using hx), h.ordered, kahn_final hE h⟩
    | c :: q =>
      exfalso
      have hsub : (acc ++ c :: q).Nodup := h.nodup
      have hle : (acc ++ c :: q).length ≤ N.length :=
        ((hsub.subperm (h.subN)).length_le)
      simp only [List.length_append, List.length_cons] at hle
      omega
  | succ fuel ih =>
    intro q deg acc h hfuel
    match q with
    | [] =>
      refine ⟨acc, by rw [kahnLoop], by simpa using h.nodup,
        fun x hx => h.subN x (by simpa using hx), h.ordered, kahn_final hE h⟩
    | c :: q =>
      rw [kahnLoop]
      have hdsN : ∀ x ∈ (E.filter (fun e => e.1 = c)).map (·.2), x ∈ N := by
        intro x hx
        rw [List.mem_map] at hx
        obtain ⟨e, he, hex⟩ := hx
        exact hex ▸ (hE e (List.mem_of_mem_filter he)).2
      have hdec := decDeps_inv _ deg q (kahn_pop_inv h) hdsN
      have hinv : KahnInv E N (decDeps ((E.filter (fun e => e.1 = c)).map (·.2)) deg q).2
          (acc ++ [c]) (decDeps ((E.filter (fun e => e.1 = c)).map (·.2)) deg q).1 := by
        refine ⟨hdec.nodup, hdec.subN, ?_, hdec.ready, hdec.seen_nonpos, hdec.unseen_pos,
          kahn_pop_ordered h⟩
        intro x
        have := hdec.sync x
        simpa [occ_nil] using this
      have := ih _ _ _ hinv (by simp only [List.length_append, List.length_singleton]; omega)
      simpa using this

/-! ### Cycle extraction -/

theorem exists_chain_of_no_escape {reg : Registry} {R : List Id}
    (hstep : ∀ x ∈ R, ∃ d, DependsOn reg x d ∧ d ∈ R) :
    ∀ (n : Nat) (x : Id), x ∈ R → ∃ w, w.length = n ∧ (∀ y ∈ w, y ∈ R) ∧
      List.Chain (DependsOn reg) x w := by
  intro n
  induction n with
  | zero => exact fun x _ => ⟨[], rfl, by simp, .nil⟩
  | succ n ih =>
    intro x hx
    obtain ⟨d, hdep, hdR⟩ := hstep x hx
    obtain ⟨w, hlen, hsub, hchain⟩ := ih d hdR
    refine ⟨d :: w, by simp [hlen], ?_, .cons hdep hchain⟩
    intro y hy
    rcases List.mem_cons.mp hy with rfl | hy
    · exact hdR
    · exact hsub y hy

theorem exists_dup_split {l : List Id} (h : ¬ l.Nodup) :
    ∃ a x m b, l = a ++ x :: m ++ x :: b := by
  induction l with
  | nil => simp at h
  | cons y rest ih =>
    by_cases hy : y ∈ rest
    · obtain ⟨s, t, rfl⟩ := List.append_of_mem hy
      exact ⟨[], y, s, t, by simp⟩
    · have hrest : ¬ rest.Nodup := fun hnd => h (List.nodup_cons.mpr ⟨hy, hnd⟩)
      obtain ⟨a, x, m, b, hsp⟩ := ih hrest
      exact ⟨y :: a, x, m, b, by simp [hsp]⟩

theorem not_nodup_of_long {w R : List Id} (hsub : ∀ y ∈ w, y ∈ R)
    (hlen : R.length < w.length) : ¬ w.Nodup := by
  intro hnd
  have := (hnd.subperm hsub).length_le
  omega

theorem cycle_of_chain_dup {reg : Registry} {x0 x : Id} {w a m b : List Id}
    (hchain : List.Chain (DependsOn reg) x0 w) (hw : w = a ++ x :: m ++ x :: b) :
    List.Chain (DependsOn reg) x (m ++ [x]) := by
  subst hw
  have hchain2 : List.Chain (DependsOn reg) x0 (a ++ x :: (m ++ x :: b)) := by
    simpa [List.cons_append, List.append_assoc] using hchain
  have h1 := ((@List.chain_split _ _ x0 x a (m ++ x :: b)).mp hchain2).2
  exact ((@List.chain_split _ _ x x m b).mp h1).1

theorem OnCycle.mono_set {reg : Registry} {S T : Id → Prop} {x : Id}
    (h : OnCycle reg S x) (hST : ∀ y, S y → T y) : OnCycle reg T x := by
  obtain ⟨xs, hchain, hx, hxs⟩ := h
  exact ⟨xs, hchain, hST x hx, fun y hy => hST y (hxs y hy)⟩

/-- A nonempty set of nodes each of which depends on another node of the
set contains a dependency cycle. -/
theorem exists_cycle_of_no_escape {reg : Registry} {R : List Id} (hne : R ≠ [])
    (hstep : ∀ x ∈ R, ∃ d, DependsOn reg x d ∧ d ∈ R) :
    ∃ x ∈ R, OnCycle reg (fun y => y ∈ R) x := by
  obtain ⟨x0, hx0⟩ := List.exists_mem_of_ne_nil R hne
  obtain ⟨w, hlen, hsub, hchain⟩ := exists_chain_of_no_escape hstep (R.length + 1) x0 hx0
  have hnd : ¬ w.Nodup := not_nodup_of_long hsub (by omega)
  obtain ⟨a, x, m, b, hw⟩ := exists_dup_split hnd
  have hcyc := cycle_of_chain_dup hchain hw
  have hxR : x ∈ R := hsub x (by rw [hw]; simp)
  refine ⟨x, hxR, m, hcyc, hxR, ?_⟩
  intro y hy
  exact hsub y (by rw [hw]; simp [hy])

/-- No dependency cycle can run entirely inside a topologically ordered,
duplicate-free output whose edge list is dependency-complete. -/
theorem no_cycle_aux {reg : Registry} {E : List (Id × Id)} {order : List Id}
    (hord : OrderedFrom E [] order) (hnd : order.Nodup)
    (hcomp : ∀ u ∈ order, ∀ d, DependsOn reg u d → (d, u) ∈ E) :
    ∀ (n : Nat) (u : Id) (a1 a2 ys : List Id), order = a1 ++ u :: a2 → a1.length ≤ n →
      List.Chain (DependsOn reg) u (ys ++ [u]) → (∀ y ∈ ys, y ∈ order) → False := by
  intro n
  induction n using Nat.strong_induction_on with
  | _ n ih =>
    intro u a1 a2 ys hsplit hlen hchain hys
    have humem : u ∈ order := by rw [hsplit]; simp
    have hu_not_a1 : u ∉ a1 := by
      intro hu
      rw [hsplit, List.nodup_append] at hnd
      exact hnd.2.2 hu (List.mem_cons_self u a2)
    match ys with
    | [] =>
      have hdep : DependsOn reg u u := by
        simpa using hchain
      have hedge : (u, u) ∈ E := hcomp u humem u hdep
      have hsp := OrderedFrom.split (hsplit ▸ hord) u hedge
      simp only [List.nil_append] at hsp
      exact hu_not_a1 hsp
    | z :: ys2 =>
      have hchain2 : DependsOn reg u z ∧
          List.Chain (DependsOn reg) z (ys2 ++ [u]) := by
        rw [List.cons_append] at hchain
        exact ⟨List.chain_cons.mp hchain |>.1, List.chain_cons.mp hchain |>.2⟩
      have hedge : (z, u) ∈ E := hcomp u humem z hchain2.1
      have hz_a1 : z ∈ a1 := by
        have hsp := OrderedFrom.split (hsplit ▸ hord) z hedge
        simpa using hsp
      obtain ⟨b1, b2, hb⟩ := List.append_of_mem hz_a1
      have hsplit2 : order = b1 ++ z :: (b2 ++ u :: a2) := by
        rw [hsplit, hb]
        simp
      have hlen2 : b1.length < n := by
        have : a1.length = b1.length + b2.length + 1 := by
          rw [hb]
          simp
          omega
        omega
      have hchain3 : List.Chain (DependsOn reg) z ((ys2 ++ [u]) ++ [z]) := by
        rw [List.append_assoc]
        exact List.chain_split.mpr ⟨hchain2.2, List.chain_singleton.mpr hchain2.1⟩
      apply ih b1.length hlen2 z b1 (b2 ++ u :: a2) (ys2 ++ [u]) hsplit2 le_rfl hchain3
      intro y hy
      rcases List.mem_append.mp hy with hy | hy
      · exact hys y (List.mem_cons_of_mem z hy)
      · simp only [List.mem_singleton] at hy
        exact hy ▸ humem

theorem no_cycle_of_ordered {reg : Registry} {E : List (Id × Id)} {order : List Id}
    (hord : OrderedFrom E [] order) (hnd : order.Nodup)
    (hcomp : ∀ u ∈ order, ∀ d, DependsOn reg u d → (d, u) ∈ E)
    {x : Id} {xs : List Id}
    (hchain : List.Chain (DependsOn reg) x (xs ++ [x]))
    (hx : x ∈ order) (hxs : ∀ y ∈ xs, y ∈ order) : False := by
  obtain ⟨a1, a2, hsplit⟩ := List.append_of_mem hx
  exact no_cycle_aux hord hnd hcomp a1.length x a1 a2 xs hsplit le_rfl hchain hxs

/-! ### Facts about the state built by `resolve_dependencies` -/

theorem resolve_build_facts (reg : Registry) (targets : List Id) (st : BuildState)
    (hok : buildAll reg targets ⟨targets.dedup, [], fun _ => 0⟩ = .ok st) :
    st.allTasks.Nodup ∧
    (∀ t ∈ targets, t ∈ st.allTasks) ∧
    (∀ u ∈ st.allTasks, Processed reg st u) ∧
    (∀ e ∈ st.graph, EdgeOK reg st e) ∧
    DegSync st ∧
    (∀ u ∈ st.allTasks, InClosure reg targets u) ∧
    (∀ x, InClosure reg targets x → x ∈ st.allTasks) := by
  have hts : ∀ t ∈ targets, t ∈ (⟨targets.dedup, [], fun _ => 0⟩ : BuildState).allTasks :=
    fun t ht => List.mem_dedup.mpr ht
  have hspec := buildAll_spec reg targets _ st hok hts
  have post := hspec.1
  have hnodup : st.allTasks.Nodup := post.2.2.2.2.1 (List.nodup_dedup _)
  have hsubt : ∀ t ∈ targets, t ∈ st.allTasks := fun t ht => post.1 t (hts t ht)
  have hproc : ∀ u ∈ st.allTasks, Processed reg st u := by
    intro u hu
    rcases post.2.2.1 u hu with h | h
    · exact hspec.2.1 u (List.mem_dedup.mp h)
    · exact h
  have hedge : ∀ e ∈ st.graph, EdgeOK reg st e := by
    intro e he
    rcases post.2.2.2.1 e he with h | h
    · simp at h
    · exact h
  have hdeg : DegSync st := by
    apply post.2.2.2.2.2
    intro x
    simp [countIn]
  have hsubC : ∀ u ∈ st.allTasks, InClosure reg targets u := by
    apply hspec.2.2 (InClosure reg targets)
    · exact fun u d hu hdep => .step hu hdep
    · exact fun u hu => .base (List.mem_dedup.mp hu)
  have hCsub : ∀ x, InClosure reg targets x → x ∈ st.allTasks := by
    intro x hx
    induction hx with
    | base h => exact hsubt _ h
    | step hu hdep ih =>
      obtain ⟨m, hm, hall⟩ := hproc _ ih
      obtain ⟨m2, hm2, hd⟩ := hdep
      rw [hm] at hm2
      cases hm2
      exact (hall _ hd).1
  exact ⟨hnodup, hsubt, hproc, hedge, hdeg, hsubC, hCsub⟩

theorem edge_complete_of_processed {reg : Registry} {st : BuildState}
    (hproc : ∀ u ∈ st.allTasks, Processed reg st u) :
    ∀ u ∈ st.allTasks, ∀ d, DependsOn reg u d → (d, u) ∈ st.graph := by
  intro u hu d hdep
  obtain ⟨m, hm, hall⟩ := hproc u hu
  obtain ⟨m2, hm2, hd⟩ := hdep
  rw [hm] at hm2
  cases hm2
  exact (hall _ hd).2

theorem resolve_initial_inv (st : BuildState)
    (hnodup : st.allTasks.Nodup) (hdeg : DegSync st) :
    KahnInv st.graph st.allTasks (st.allTasks.filter (fun t => st.inDeg t = 0)) []
      st.inDeg := by
  refine ⟨?_, ?_, ?_, ?_, ?_, ?_, trivial⟩
  · simpa using hnodup.filter _
  · intro x hx
    simp only [List.nil_append] at hx
    exact List.mem_of_mem_filter hx
  · intro x
    rw [countFrom_nil]
    have := hdeg x
    omega
  · intro x hxN h0
    simp only [List.nil_append]
    rw [List.mem_filter]
    exact ⟨hxN, by simpa using h0⟩
  · intro x hx
    simp only [List.nil_append, List.mem_filter] at hx
    have : st.inDeg x = 0 := by simpa using hx.2
    omega
  · intro x hxN hx
    simp only [List.nil_append, List.mem_filter] at hx
    have hne : ¬ st.inDeg x = 0 := fun h0 => hx ⟨hxN, by simpa using h0⟩
    have := hdeg x
    have : (0 : Int) ≤ countIn st.graph x := Int.ofNat_nonneg _
    omega

/-- Main case analysis of `resolve_dependencies`: when all closure members
are registered, it either succeeds with a duplicate-free topological order
of exactly the transitive closure (in which case the closure is acyclic),
or fails with the circular-dependency error naming a set that contains a
node on a dependency cycle of the closure. -/
theorem resolve_cases (reg : Registry) (targets : List Id)
    (hclos : ∀ x, InClosure reg targets x → isRegistered reg x = true) :
    (∃ order, resolve_dependencies reg targets = .ok order ∧
      order.Nodup ∧ (∀ x, x ∈ order ↔ InClosure reg targets x) ∧
      (∀ a1 u a2, order = a1 ++ u :: a2 → ∀ d, DependsOn reg u d → d ∈ a1) ∧
      ¬ HasCycle reg (InClosure reg targets)) ∨
    (∃ R, resolve_dependencies reg targets = .error (.circular R) ∧
      HasCycle reg (InClosure reg targets) ∧
      ∃ x ∈ R, OnCycle reg (InClosure reg targets) x) := by
  obtain ⟨st, hbuild⟩ := buildAll_ok reg targets targets ⟨targets.dedup, [], fun _ => 0⟩
    hclos (fun t ht => .base ht)
  obtain ⟨hnodup, hsubt, hproc, hedge, hdeg, hsubC, hCsub⟩ :=
    resolve_build_facts reg targets st hbuild
  have hcomp := edge_complete_of_processed hproc
  have hE : ∀ e ∈ st.graph, e.1 ∈ st.allTasks ∧ e.2 ∈ st.allTasks :=
    fun e he => ⟨(hedge e he).2.1, (hedge e he).2.2⟩
  obtain ⟨res, hkahn, hresnd, hressub, hresord, hresmiss⟩ :=
    kahnLoop_spec st.graph st.allTasks hE (st.allTasks.length + 1)
      (st.allTasks.filter (fun t => st.inDeg t = 0)) st.inDeg []
      (resolve_initial_inv st hnodup hdeg) (by simp)
  have hreseq : resolve_dependencies reg targets =
      (if res.length ≠ st.allTasks.length then
        .error (.circular (st.allTasks.filter (fun t => t ∉ res)))
      else .ok res) := by
    rw [resolve_dependencies]
    simp only [hbuild]
    rw [hkahn]
  by_cases hlen : res.length = st.allTasks.length
  · left
    have hperm : List.Perm res st.allTasks :=
      (hresnd.subperm hressub).perm_of_length_le (by omega)
    have hmemiff : ∀ x, x ∈ res ↔ InClosure reg targets x := by
      intro x
      rw [hperm.mem_iff]
      exact ⟨hsubC x, hCsub x⟩
    have hcompo : ∀ u ∈ res, ∀ d, DependsOn reg u d → (d, u) ∈ st.graph :=
      fun u hu d hdep => hcomp u (hressub u hu) d hdep
    have hnocyc : ¬ HasCycle reg (InClosure reg targets) := by
      rintro ⟨x, xs, hchain, hx, hxs⟩
      exact no_cycle_of_ordered hresord hresnd hcompo hchain
        ((hmemiff x).mpr hx) (fun y hy => (hmemiff y).mpr (hxs y hy))
    refine ⟨res, ?_, hresnd, hmemiff, ?_, hnocyc⟩
    · rw [hreseq, if_neg (by omega)]
    · intro a1 u a2 hsp d hdep
      have hu : u ∈ res := by rw [hsp]; simp
      have hedge2 : (d, u) ∈ st.graph := hcompo u hu d hdep
      have := OrderedFrom.split (hsp ▸ hresord) d hedge2
      simpa using this
  · right
    set R := st.allTasks.filter (fun t => t ∉ res) with hR
    have hRmem : ∀ x, x ∈ R ↔ (x ∈ st.allTasks ∧ x ∉ res) := by
      intro x
      rw [hR, List.mem_filter]
      simp
    have hRne : R ≠ [] := by
      intro hnil
      have hall : ∀ x ∈ st.allTasks, x ∈ res := by
        intro x hx
        by_contra hxr
        have : x ∈ R := (hRmem x).mpr ⟨hx, hxr⟩
        rw [hnil] at this
        simp at this
      have h1 : st.allTasks.length ≤ res.length := (hnodup.subperm hall).length_le
      have h2 : res.length ≤ st.allTasks.length := (hresnd.subperm hressub).length_le
      omega
    have hstep : ∀ x ∈ R, ∃ d, DependsOn reg x d ∧ d ∈ R := by
      intro x hx
      obtain ⟨hxN, hxres⟩ := (hRmem x).mp hx
      obtain ⟨d, hd, hdN, hdres⟩ := hresmiss x hxN hxres
      refine ⟨d, ?_, (hRmem d).mpr ⟨hdN, hdres⟩⟩
      have := hedge _ hd
      exact this.1
    obtain ⟨x, hxR, hcyc⟩ := exists_cycle_of_no_escape hRne hstep
    have hmono : ∀ y, y ∈ R → InClosure reg targets y :=
      fun y hy => hsubC y ((hRmem y).mp hy).1
    refine ⟨R, ?_, ⟨x, hcyc.mono_set hmono⟩, x, hxR, hcyc.mono_set hmono⟩
    rw [hreseq, if_pos (by omega)]

/-! ### Helper lemmas for instantiating the resolver theorems -/

theorem lookupMeta_mem {reg : Registry} {u : Id} {m : TaskMeta}
    (h : lookupMeta reg u = some m) : ∃ p ∈ reg, p.1 = u ∧ p.2 = m := by
  unfold lookupMeta at h
  rw [Option.map_eq_some'] at h
  obtain ⟨p, hp, h2⟩ := h
  exact ⟨p, List.mem_of_find?_eq_some hp, by simpa using List.find?_some hp, h2⟩

/-- A registry in which every registered task's dependencies are themselves
registered has its whole closure registered. -/
theorem closure_registered_of_closed (reg : Registry) (targets : List Id)
    (hreg : ∀ t ∈ targets, isRegistered reg t = true)
    (hclosed : ∀ p ∈ reg, ∀ d ∈ p.2.dependencies, isRegistered reg d = true) :
    ∀ x, InClosure reg targets x → isRegistered reg x = true := by
  intro x hx
  induction hx with
  | base h => exact hreg _ h
  | step hu hdep ih =>
    obtain ⟨m, hm, hd⟩ := hdep
    obtain ⟨p, hp, _, hpm⟩ := lookupMeta_mem hm
    exact hclosed p hp _ (hpm ▸ hd)

theorem chain_rank_lt {reg : Registry} {rk : Id → Nat}
    (hrk : ∀ u d, DependsOn reg u d → rk d < rk u) :
    ∀ (l : List Id) (a b : Id), List.Chain (DependsOn reg) a (l ++ [b]) → rk b < rk a := by
  intro l
  induction l with
  | nil =>
    intro a b h
    exact hrk a b (List.chain_singleton.mp h)
  | cons z l ih =>
    intro a b h
    rw [List.cons_append] at h
    obtain ⟨h1, h2⟩ := List.chain_cons.mp h
    exact lt_trans (ih z b h2) (hrk a z h1)

/-- A ranking strictly decreasing along dependencies rules out cycles. -/
theorem no_cycle_of_rank (reg : Registry) (S : Id → Prop) (rk : Id → Nat)
    (hrk : ∀ u d, DependsOn reg u d → rk d < rk u) : ¬ HasCycle reg S := by
  rintro ⟨x, xs, hchain, _, _⟩
  exact absurd (chain_rank_lt hrk xs x x hchain) (lt_irrefl _)

/-! ### Claims C1 and C2 -/

/-- C1: for every registry whose induced dependency graph on the transitive
closure of the request is well defined (all closure members registered) and
acyclic, `resolve_dependencies` returns a list containing every task id of
the transitive dependency closure exactly once, and every task id appears
after all the task ids named in its declared dependencies. -/
theorem resolve_dependencies_topological (reg : Registry) (targets : List Id)
    (_hreq : ∀ t ∈ targets, isRegistered reg t = true)
    (hclos : ∀ x, InClosure reg targets x → isRegistered reg x = true)
    (hacyc : ¬ HasCycle reg (InClosure reg targets)) :
    ∃ order, resolve_dependencies reg targets = .ok order ∧
      order.Nodup ∧ (∀ x, x ∈ order ↔ InClosure reg targets x) ∧
      (∀ a1 u a2, order = a1 ++ u :: a2 → ∀ d, DependsOn reg u d → d ∈ a1) := by
  rcases resolve_cases reg targets hclos with ⟨order, ho, hnd, hiff, hord, _⟩ | ⟨_, _, hcyc, _⟩
  · exact ⟨order, ho, hnd, hiff, hord⟩
  · exact absurd hcyc hacyc

/-- Registry for the resolver witnesses: `a` depends on `b`. -/
def regW : Registry := [("a", ⟨["b"], []⟩), ("b", ⟨[], []⟩)]

/-- Witness for C1: on the registry `a → b`, requesting `["a"]` yields a
duplicate-free topological order of the closure. -/
theorem resolve_dependencies_topological_witness :
    (∀ t ∈ ["a"], isRegistered regW t = true) ∧
    (∀ x, InClosure regW ["a"] x → isRegistered regW x = true) ∧
    (¬ HasCycle regW (InClosure regW ["a"])) ∧
    (∃ order, resolve_dependencies regW ["a"] = .ok order ∧
      order.Nodup ∧ (∀ x, x ∈ order ↔ InClosure regW ["a"] x) ∧
      (∀ a1 u a2, order = a1 ++ u :: a2 → ∀ d, DependsOn regW u d → d ∈ a1)) := by
  have hreq : ∀ t ∈ ["a"], isRegistered regW t = true := by decide
  have hclos : ∀ x, InClosure regW ["a"] x → isRegistered regW x = true :=
    closure_registered_of_closed regW ["a"] hreq (by decide)
  have hrk : ∀ u d, DependsOn regW u d → (if u = "a" then 1 else 0) >
      (if d = "a" then 1 else 0) := by
    intro u d hdep
    obtain ⟨m, hm, hd⟩ := hdep
    obtain ⟨p, hp, hpu, hpm⟩ := lookupMeta_mem hm
    simp only [regW, List.mem_cons, List.mem_singleton] at hp
    rcases hp with rfl | rfl | h
    · subst hpu
      subst hpm
      simp only [List.mem_singleton] at hd
      subst hd
      simp
    · subst hpu
      subst hpm
      simp at hd
    · simp at h
  have hacyc : ¬ HasCycle regW (InClosure regW ["a"]) :=
    no_cycle_of_rank regW _ (fun x => if x = "a" then 1 else 0) (fun u d h => hrk u d h)
  exact ⟨hreq, hclos, hacyc,
    resolve_dependencies_topological regW ["a"] hreq hclos hacyc⟩

/-- C2: with the closure's induced graph well defined, requesting any list
of registered ids raises the circular-dependency error iff the induced
subgraph has a dependency cycle, and then the error's named remainder
contains at least one task lying on such a cycle. -/
theorem resolve_dependencies_circular_iff (reg : Registry) (targets : List Id)
    (_hreq : ∀ t ∈ targets, isRegistered reg t = true)
    (hclos : ∀ x, InClosure reg targets x → isRegistered reg x = true) :
    ((∃ R, resolve_dependencies reg targets = .error (.circular R)) ↔
      HasCycle reg (InClosure reg targets)) ∧
    (∀ R, resolve_dependencies reg targets = .error (.circular R) →
      ∃ x ∈ R, OnCycle reg (InClosure reg targets) x) := by
  rcases resolve_cases reg targets hclos with ⟨order, ho, _, _, _, hnocyc⟩ |
    ⟨R, he, hcyc, hx⟩
  · constructor
    · constructor
      · rintro ⟨R, hR⟩
        rw [ho] at hR
        simp at hR
      · intro h
        exact absurd h hnocyc
    · intro R hR
      rw [ho] at hR
      simp at hR
  · constructor
    · exact ⟨fun _ => hcyc, fun _ => ⟨R, he⟩⟩
    · intro R2 hR2
      rw [he] at hR2
      simp only [Except.error.injEq, ResolveErr.circular.injEq] at hR2
      exact hR2 ▸ hx

/-- Registry for the C2 witness: the spec's scenario `X ↔ Y`. -/
def regXY : Registry := [("X", ⟨["Y"], []⟩), ("Y", ⟨["X"], []⟩)]

/-- Witness for C2: on the cyclic registry `X ↔ Y`, requesting `["X"]`
raises the circular-dependency error and names a task on the cycle. -/
theorem resolve_dependencies_circular_iff_witness :
    (∀ t ∈ ["X"], isRegistered regXY t = true) ∧
    (∀ x, InClosure regXY ["X"] x → isRegistered regXY x = true) ∧
    ((∃ R, resolve_dependencies regXY ["X"] = .error (.circular R)) ↔
      HasCycle regXY (InClosure regXY ["X"])) ∧
    (∀ R, resolve_dependencies regXY ["X"] = .error (.circular R) →
      ∃ x ∈ R, OnCycle regXY (InClosure regXY ["X"]) x) := by
  have hreq : ∀ t ∈ ["X"], isRegistered regXY t = true := by decide
  have hclos : ∀ x, InClosure regXY ["X"] x → isRegistered regXY x = true :=
    closure_registered_of_closed regXY ["X"] hreq (by decide)
  have h := resolve_dependencies_circular_iff regXY ["X"] hreq hclos
  exact ⟨hreq, hclos, h.1, h.2⟩

/-! ### The data carrier and the executor

`TaskInputs` and `TaskOutputs` (models.py) are structurally identical
`(data, files, metadata)` triples; both are modelled by `Carrier`.  The maps
are total functions `String → Option _` (`none` = key absent), which gives
Python dict lookup, `in`, and overwrite semantics directly.  File paths are
strings.  Wall-clock timestamps (`datetime.now()`) are environmental; the
executor model stamps them with `0`. -/

structure Carrier where
  data : String → Option PyVal
  files : String → Option String
  metadata : String → Option PyVal

/-- A fresh empty carrier (`TaskInputs()` / `TaskOutputs()`). -/
def Carrier.empty : Carrier := ⟨fun _ => none, fun _ => none, fun _ => none⟩

/-- `add_data` of models.py: `self.data[key] = value`. -/
def Carrier.add_data (c : Carrier) (k : String) (v : PyVal) : Carrier :=
  { c with data := fun x => if x = k then some v else c.data x }

/-- `add_file` of models.py: `self.files[key] = Path(file_path)`. -/
def Carrier.add_file (c : Carrier) (k : String) (p : String) : Carrier :=
  { c with files := fun x => if x = k then some p else c.files x }

/-- The behaviour of one concrete task implementation, i.e. the dynamic
interface of `BaseTask` (base.py) as the executor sees it: the result of
`validate_inputs`, of `execute` (success with outputs or a raised error
message), and whether `setup` / `cleanup` raise. -/
structure TaskImpl where
  validate : Carrier → Bool
  run : Carrier → Except String Carrier
  setupErr : Option String
  cleanupErr : Option String

/-- The default `BaseTask.validate_inputs` (base.py lines 82-100): true iff
at least one declared input type is present in the data or files maps. -/
def validate_inputs_default (input_types : List String) (inputs : Carrier) : Bool :=
  input_types.any (fun ty => (inputs.data ty).isSome || (inputs.files ty).isSome)

/-- `TaskConfig` (models.py / base.py): the declarative per-task
configuration.  `inputs` is a dict, kept as an association list with
distinct keys. -/
structure TaskConfig where
  task_id : Id
  inputs : List (String × PyVal) := []
  settings : List (String × PyVal) := []

/-- `PipelineConfig` (models.py). -/
structure PipelineConfig where
  name : String
  description : String
  tasks : List TaskConfig
  settings : List (String × PyVal) := []
  metadata : List (String × PyVal) := []

/-- `TaskExecution` (models.py). -/
structure TaskExecution where
  task_id : Id
  status : TaskStatus
  start_time : Option Nat := none
  end_time : Option Nat := none
  inputs : Option Carrier := none
  outputs : Option Carrier := none
  error_message : Option String := none
  execution_metadata : List (String × PyVal) := []

/-- `PipelineResult` (models.py).  `task_executions` is an insertion-ordered
dict, kept as an association list in insertion order. -/
structure PipelineResult where
  pipeline_id : String
  config : PipelineConfig
  status : TaskStatus
  start_time : Nat
  end_time : Option Nat := none
  task_executions : List (Id × TaskExecution) := []
  final_outputs : Option Carrier := none
  error_message : Option String := none

/-- First loop of `PipelineExecutor._prepare_task_inputs` (executor.py lines
226-238): resolve each configured input; a string value starting with `$`
is a reference looked up first in `data`, then in `files`; unresolvable
references contribute nothing; any other value is a literal. -/
def resolveConfiguredInputs : List (String × PyVal) → Carrier → Carrier → Carrier
  | [], _, acc => acc
  | (key, value) :: rest, avail, acc =>
    -- `value.startswith("$")` / `value[1:]` are modelled on the string's
    -- character list (a Python string is a sequence of characters).
    let acc1 :=
      match value with
      | .str s =>
        match s.data with
        | c :: cs =>
          if c = '$' then
            let output_key := String.mk cs
            match avail.data output_key with
            | some v => acc.add_data key v
            | none =>
              match avail.files output_key with
              | some f => acc.add_file key f
              | none => acc
          else acc.add_data key (PyVal.str s)
        | [] => acc.add_data key (PyVal.str s)
      | v => acc.add_data key v
    resolveConfiguredInputs rest avail acc1

/-- Second loop of `_prepare_task_inputs` (executor.py lines 240-248): copy
every available output whose key matches a declared input type. -/
def addTypeMatchedInputs : List String → Carrier → Carrier → Carrier
  | [], _, acc => acc
  | ty :: rest, avail, acc =>
    let acc1 :=
      match avail.data ty with
      | some v => acc.add_data ty v
      | none => acc
    let acc2 :=
      match avail.files ty with
      | some f => acc1.add_file ty f
      | none => acc1
    addTypeMatchedInputs rest avail acc2

/-- Third loop of `_prepare_task_inputs` (executor.py lines 250-253): pass
every remaining available data entry not already set.  Since only absent
keys are added, the dict iteration order is irrelevant and the loop is a
pointwise fallback. -/
def addRemainingData (avail : Carrier) (acc : Carrier) : Carrier :=
  { acc with
    data := fun k =>
      match acc.data k with
      | some v => some v
      | none => avail.data k }

/-- `PipelineExecutor._prepare_task_inputs` (executor.py lines 211-255). -/
def prepareTaskInputs (meta : TaskMeta) (config : TaskConfig) (avail : Carrier) : Carrier :=
  addRemainingData avail
    (addTypeMatchedInputs meta.input_types avail
      (resolveConfiguredInputs config.inputs avail Carrier.empty))

/-- The message of the `ValueError` raised by `TaskRegistry.get_task` for an
unregistered id (registry.py line 59; the list formatting is abridged). -/
def getTaskErrMsg (reg : Registry) (t : Id) : String :=
  "Task '" ++ t ++ "' is not registered. Available tasks: " ++ toString (reg.map (·.1))

/-- `PipelineExecutor._execute_task` (executor.py lines 149-209).  Every
exception inside the body is caught and turns the execution `FAILED` with
the exception's message.  Note the `try/finally`: `cleanup()` always runs
after `execute()`, and an exception raised by `cleanup()` propagates to the
outer handler, overriding the already-assigned `COMPLETED` status (the
`outputs` assignment made before the `finally` survives).  `setup()` runs
before the `try`, so cleanup is not run when setup raises.
`_save_task_outputs` only relocates files on disk and is a no-op on the
carrier in this model. -/
def execTask (reg : Registry) (impls : Id → TaskImpl) (config : TaskConfig)
    (avail : Carrier) : TaskExecution :=
  let base : TaskExecution :=
    { task_id := config.task_id, status := .running, start_time := some 0 }
  match lookupMeta reg config.task_id with
  | none =>
    { base with status := .failed,
                error_message := some (getTaskErrMsg reg config.task_id),
                end_time := some 0 }
  | some m =>
    let impl := impls config.task_id
    let task_inputs := prepareTaskInputs m config avail
    let withInputs := { base with inputs := some task_inputs }
    if impl.validate task_inputs = false then
      { withInputs with status := .failed,
                        error_message := some ("Invalid inputs for task " ++ config.task_id),
                        end_time := some 0 }
    else
      match impl.setupErr with
      | some e =>
        { withInputs with status := .failed, error_message := some e, end_time := some 0 }
      | none =>
        match impl.run task_inputs with
        | .ok outs =>
          match impl.cleanupErr with
          | none =>
            { withInputs with status := .completed, outputs := some outs, end_time := some 0 }
          | some ce =>
            { withInputs with status := .failed, outputs := some outs,
                              error_message := some ce, end_time := some 0 }
        | .error e =>
          match impl.cleanupErr with
          | none =>
            { withInputs with status := .failed, error_message := some e, end_time := some 0 }
          | some ce =>
            { withInputs with status := .failed, error_message := some ce, end_time := some 0 }

/-- Merging a finished task's outputs into the available outputs
(executor.py lines 117-123): `dict.update` on all three maps, the task's
entries overriding existing ones.  `if task_execution.outputs:` is a
None-check (a dataclass instance is always truthy). -/
def mergeOutputs (avail : Carrier) (outs : Option Carrier) : Carrier :=
  match outs with
  | none => avail
  | some o =>
    { data := fun k => match o.data k with | some v => some v | none => avail.data k
      files := fun k => match o.files k with | some v => some v | none => avail.files k
      metadata := fun k => match o.metadata k with | some v => some v | none => avail.metadata k }

/-- Finding the configured `TaskConfig` for a task id (executor.py lines
91-100): first match wins; dependency tasks absent from the configuration
get a minimal default config. -/
def findTaskConfig (tasks : List TaskConfig) (t : Id) : TaskConfig :=
  match tasks.find? (fun c => c.task_id = t) with
  | some c => c
  | none => { task_id := t }

/-- Python string interpolation of an `Optional[str]` (None prints as
`"None"`). -/
def optionStr : Option String → String
  | some s => s
  | none => "None"

/-- The per-task loop of `execute_pipeline` (executor.py lines 90-123):
returns the recorded executions in order, the pipeline error message if a
task failed, and the final accumulated outputs. -/
def runTasks (reg : Registry) (impls : Id → TaskImpl) (cfgTasks : List TaskConfig) :
    List Id → Carrier → (List (Id × TaskExecution) × Option String × Carrier)
  | [], avail => ([], none, avail)
  | t :: rest, avail =>
    let tc := findTaskConfig cfgTasks t
    let te := execTask reg impls tc avail
    if te.status = .failed then
      ([(t, te)], some ("Task '" ++ t ++ "' failed: " ++ optionStr te.error_message), avail)
    else
      let r := runTasks reg impls cfgTasks rest (mergeOutputs avail te.outputs)
      ((t, te) :: r.1, r.2.1, r.2.2)

/-- Seeding the available outputs from the initial inputs (executor.py
lines 83-88): a string value naming an existing path is classified as a
file, everything else as data.  Filesystem existence is abstracted by the
oracle `pathExists`. -/
def seedInitialInputs (pathExists : String → Bool) (initial : List (String × PyVal)) : Carrier :=
  initial.foldl
    (fun acc kv =>
      match kv.2 with
      | .str s => if pathExists s then acc.add_file kv.1 s else acc.add_data kv.1 (PyVal.str s)
      | v => acc.add_data kv.1 v)
    Carrier.empty

/-- Message of the `ValueError`s of `resolve_dependencies` as seen through
`str(e)` (formatting abridged). -/
def resolveErrMsg : ResolveErr → String
  | .notRegistered t => "Task '" ++ t ++ "' is not registered"
  | .circular remaining => "Circular dependency detected involving tasks: " ++ toString remaining
  | .fuelOut => "fuel exhausted"

/-- `PipelineExecutor.execute_pipeline` (executor.py lines 39-147).  The
`PipelineResult` is created up front with status RUNNING; any exception
raised before or between tasks (in particular a dependency-resolution
error) is caught by the outer `except` and turned into a returned FAILED
result.  On success the accumulated outputs become `final_outputs`;
on failure `final_outputs` keeps its `None` default. -/
def executePipeline (reg : Registry) (impls : Id → TaskImpl) (config : PipelineConfig)
    (initial : List (String × PyVal)) (pathExists : String → Bool)
    (pipeline_id : String) : PipelineResult :=
  let result0 : PipelineResult :=
    { pipeline_id := pipeline_id, config := config, status := .running, start_time := 0 }
  match resolve_dependencies reg (config.tasks.map (·.task_id)) with
  | .error e =>
    { result0 with status := .failed, error_message := some (resolveErrMsg e),
                   end_time := some 0 }
  | .ok execution_order =>
    let avail0 := seedInitialInputs pathExists initial
    let r := runTasks reg impls config.tasks execution_order avail0
    match r.2.1 with
    | some msg =>
      { result0 with status := .failed, error_message := some msg,
                     task_executions := r.1, end_time := some 0 }
    | none =>
      { result0 with status := .completed, task_executions := r.1,
                     final_outputs := some r.2.2, end_time := some 0 }

/-! ### Executor lemmas -/

/-- Every task execution produced by `_execute_task` ends COMPLETED or
FAILED. -/
theorem execTask_status (reg : Registry) (impls : Id → TaskImpl) (config : TaskConfig)
    (avail : Carrier) :
    (execTask reg impls config avail).status = .completed ∨
    (execTask reg impls config avail).status = .failed := by
  cases hm : lookupMeta reg config.task_id with
  | none => right; simp [execTask, hm]
  | some m =>
    simp only [execTask, hm]
    by_cases hv : (impls config.task_id).validate (prepareTaskInputs m config avail) = false
    · right
      simp [hv]
    · rw [if_neg hv]
      cases hs : (impls config.task_id).setupErr with
      | some e => right; simp
      | none =>
        cases hr : (impls config.task_id).run (prepareTaskInputs m config avail) with
        | ok outs =>
          cases hc : (impls config.task_id).cleanupErr with
          | none => left; simp
          | some ce => right; simp
        | error e =>
          cases hc : (impls config.task_id).cleanupErr with
          | none => right; simp
          | some ce => right; simp

/-- Left-biased choice on options: `a` if present, else `b`. -/
def orElseO {α : Type} : Option α → Option α → Option α
  | some v, _ => some v
  | none, b => b

theorem orElseO_assoc {α : Type} (a b c : Option α) :
    orElseO (orElseO a b) c = orElseO a (orElseO b c) := by
  cases a <;> cases b <;> rfl

/-- The value placed under key `k` by the most recent recorded execution
whose outputs contain `k`, reading the execution list left-to-right with
later entries taking precedence. -/
def producedBy {α : Type} (f : Carrier → String → Option α) :
    List (Id × TaskExecution) → String → Option α
  | [], _ => none
  | e :: rest, k => orElseO (producedBy f rest k) (e.2.outputs.bind (fun o => f o k))

theorem mergeOutputs_data (avail : Carrier) (outs : Option Carrier) (k : String) :
    (mergeOutputs avail outs).data k
      = orElseO (outs.bind (fun o => o.data k)) (avail.data k) := by
  cases outs with
  | none => rfl
  | some o =>
    simp only [mergeOutputs, Option.some_bind]
    cases o.data k <;> rfl

theorem mergeOutputs_files (avail : Carrier) (outs : Option Carrier) (k : String) :
    (mergeOutputs avail outs).files k
      = orElseO (outs.bind (fun o => o.files k)) (avail.files k) := by
  cases outs with
  | none => rfl
  | some o =>
    simp only [mergeOutputs, Option.some_bind]
    cases o.files k <;> rfl

theorem mergeOutputs_metadata (avail : Carrier) (outs : Option Carrier) (k : String) :
    (mergeOutputs avail outs).metadata k
      = orElseO (outs.bind (fun o => o.metadata k)) (avail.metadata k) := by
  cases outs with
  | none => rfl
  | some o =>
    simp only [mergeOutputs, Option.some_bind]
    cases o.metadata k <;> rfl

/-- When no task of the loop fails, the loop records exactly one execution
per task id in order, none of them FAILED, and the final carrier is, on
every key, the latest recorded producer's value with the incoming carrier
as fallback. -/
theorem runTasks_success_spec (reg : Registry) (impls : Id → TaskImpl)
    (cfgTasks : List TaskConfig) :
    ∀ (order : List Id) (avail : Carrier),
    (runTasks reg impls cfgTasks order avail).2.1 = none →
    (runTasks reg impls cfgTasks order avail).1.map (·.1) = order ∧
    (∀ e ∈ (runTasks reg impls cfgTasks order avail).1, e.2.status ≠ .failed) ∧
    (∀ k, (runTasks reg impls cfgTasks order avail).2.2.data k =
      orElseO (producedBy (fun o => o.data) (runTasks reg impls cfgTasks order avail).1 k)
        (avail.data k)) ∧
    (∀ k, (runTasks reg impls cfgTasks order avail).2.2.files k =
      orElseO (producedBy (fun o => o.files) (runTasks reg impls cfgTasks order avail).1 k)
        (avail.files k)) ∧
    (∀ k, (runTasks reg impls cfgTasks order avail).2.2.metadata k =
      orElseO (producedBy (fun o => o.metadata) (runTasks reg impls cfgTasks order avail).1 k)
        (avail.metadata k)) := by
  intro order
  induction order with
  | nil =>
    intro avail _
    refine ⟨rfl, by simp [runTasks], ?_, ?_, ?_⟩ <;>
      (intro k; simp [runTasks, producedBy, orElseO])
  | cons t rest ih =>
    intro avail h
    rw [runTasks] at h ⊢
    by_cases hf : (execTask reg impls (findTaskConfig cfgTasks t) avail).status = .failed
    · rw [if_pos hf] at h
      simp at h
    · rw [if_neg hf] at h ⊢
      simp only [] at h ⊢
      obtain ⟨h1, h2, h3, h4, h5⟩ := ih _ h
      refine ⟨by simp [h1], ?_, ?_, ?_, ?_⟩
      · intro e he
        rcases List.mem_cons.mp he with rfl | he
        · exact hf
        · exact h2 e he
      · intro k
        rw [h3 k, mergeOutputs_data, ← orElseO_assoc]
        rfl
      · intro k
        rw [h4 k, mergeOutputs_files, ← orElseO_assoc]
        rfl
      · intro k
        rw [h5 k, mergeOutputs_metadata, ← orElseO_assoc]
        rfl

/-- When the loop reports a failure message, the recorded executions are
exactly the prefix of the order up to and including the first failing task,
all earlier ones non-FAILED, and the message names the failing task. -/
theorem runTasks_fail_spec (reg : Registry) (impls : Id → TaskImpl)
    (cfgTasks : List TaskConfig) :
    ∀ (order : List Id) (avail : Carrier) (msg : String),
    (runTasks reg impls cfgTasks order avail).2.1 = some msg →
    ∃ done t rest2 te, order = done ++ t :: rest2 ∧
      (runTasks reg impls cfgTasks order avail).1.map (·.1) = done ++ [t] ∧
      (∀ e ∈ (runTasks reg impls cfgTasks order avail).1.dropLast, e.2.status ≠ .failed) ∧
      (runTasks reg impls cfgTasks order avail).1.getLast? = some (t, te) ∧
      te.status = .failed ∧
      msg = "Task '" ++ t ++ "' failed: " ++ optionStr te.error_message ∧
      (∀ e ∈ (runTasks reg impls cfgTasks order avail).1,
        e.2.status = .completed ∨ e.2.status = .failed) := by
  intro order
  induction order with
  | nil =>
    intro avail msg h
    simp [runTasks] at h
  | cons t rest ih =>
    intro avail msg h
    rw [runTasks] at h ⊢
    by_cases hf : (execTask reg impls (findTaskConfig cfgTasks t) avail).status = .failed
    · rw [if_pos hf] at h ⊢
      simp only [Option.some.injEq] at h
      refine ⟨[], t, rest, execTask reg impls (findTaskConfig cfgTasks t) avail,
        by simp, by simp, by simp, by simp, hf, h.symm, ?_⟩
      intro e he
      simp only [List.mem_singleton] at he
      subst he
      exact execTask_status reg impls (findTaskConfig cfgTasks t) avail
    · rw [if_neg hf] at h ⊢
      simp only [] at h ⊢
      obtain ⟨done, t2, rest2, te, hsp, hmap, hdrop, hlast, hst, hmsg, hdicho⟩ := ih _ _ h
      match hr : (runTasks reg impls cfgTasks rest
          (mergeOutputs avail (execTask reg impls (findTaskConfig cfgTasks t) avail).outputs)).1 with
      | [] =>
        rw [hr] at hlast
        simp at hlast
      | p :: ps =>
        rw [hr] at hmap hdrop hlast hdicho
        refine ⟨t :: done, t2, rest2, te, by simp [hsp], by simp [hmap], ?_, ?_, hst, hmsg, ?_⟩
        · intro e he
          rw [List.dropLast_cons₂] at he
          rcases List.mem_cons.mp he with rfl | he
          · exact hf
          · exact hdrop e he
        · rw [List.getLast?_cons_cons]
          exact hlast
        · intro e he
          rcases List.mem_cons.mp he with rfl | he
          · exact execTask_status reg impls (findTaskConfig cfgTasks t) avail
          · exact hdicho e he

theorem mem_of_getLast? {α : Type} {l : List α} {a : α} (h : l.getLast? = some a) :
    a ∈ l := by
  induction l with
  | nil => simp at h
  | cons x t ih =>
    cases t with
    | nil =>
      simp only [List.getLast?_singleton, Option.some.injEq] at h
      simp [h]
    | cons y ts =>
      rw [List.getLast?_cons_cons] at h
      exact List.mem_cons_of_mem x (ih h)

/-- A successful resolution always returns a duplicate-free order. -/
theorem resolve_ok_nodup {reg : Registry} {targets order : List Id}
    (h : resolve_dependencies reg targets = .ok order) : order.Nodup := by
  rw [resolve_dependencies] at h
  match hb : buildAll reg targets ⟨targets.dedup, [], fun _ => 0⟩ with
  | .error e => rw [hb] at h; simp at h
  | .ok st =>
    simp only [hb] at h
    obtain ⟨hnodup, _, _, hedge, hdeg, _, _⟩ := resolve_build_facts reg targets st hb
    have hE : ∀ e ∈ st.graph, e.1 ∈ st.allTasks ∧ e.2 ∈ st.allTasks :=
      fun e he => ⟨(hedge e he).2.1, (hedge e he).2.2⟩
    obtain ⟨res, hkahn, hresnd, _, _, _⟩ :=
      kahnLoop_spec st.graph st.allTasks hE (st.allTasks.length + 1)
        (st.allTasks.filter (fun t => st.inDeg t = 0)) st.inDeg []
        (resolve_initial_inv st hnodup hdeg) (by simp)
    simp only [hkahn] at h
    by_cases hlen : res.length = st.allTasks.length
    · rw [if_neg (by omega)] at h
      cases h
      exact hresnd
    · rw [if_pos (by omega)] at h
      simp at h

/-- Reduction of `execute_pipeline` once the resolution result is known. -/
theorem executePipeline_ok_eq (reg : Registry) (impls : Id → TaskImpl)
    (config : PipelineConfig) (initial : List (String × PyVal))
    (pathExists : String → Bool) (pid : String) (order : List Id)
    (hres : resolve_dependencies reg (config.tasks.map (·.task_id)) = .ok order) :
    executePipeline reg impls config initial pathExists pid =
      (match (runTasks reg impls config.tasks order (seedInitialInputs pathExists initial)).2.1 with
       | some msg =>
         { pipeline_id := pid, config := config, status := .failed, start_time := 0,
           error_message := some msg,
           task_executions :=
             (runTasks reg impls config.tasks order (seedInitialInputs pathExists initial)).1,
           end_time := some 0 }
       | none =>
         { pipeline_id := pid, config := config, status := .completed, start_time := 0,
           task_executions :=
             (runTasks reg impls config.tasks order (seedInitialInputs pathExists initial)).1,
           final_outputs :=
             some (runTasks reg impls config.tasks order (seedInitialInputs pathExists initial)).2.2,
           end_time := some 0 }) := by
  rw [executePipeline, hres]

/-- Claim C3: if every task of the resolved order succeeds (equivalently:
every recorded execution completed), the pipeline result is COMPLETED, the
executions are exactly one per resolved task id in resolution order, and
`final_outputs` holds, on every key, the value of the latest producing task
with the seeded initial inputs as fallback (later tasks override earlier
ones on key collisions). -/
theorem executePipeline_all_success (reg : Registry) (impls : Id → TaskImpl)
    (config : PipelineConfig) (initial : List (String × PyVal))
    (pathExists : String → Bool) (pid : String) (order : List Id)
    (hres : resolve_dependencies reg (config.tasks.map (·.task_id)) = .ok order)
    (hall : ∀ e ∈ (executePipeline reg impls config initial pathExists pid).task_executions,
      e.2.status = .completed) :
    (executePipeline reg impls config initial pathExists pid).status = .completed ∧
    (executePipeline reg impls config initial pathExists pid).task_executions.map (·.1)
      = order ∧
    order.Nodup ∧
    (∃ fo, (executePipeline reg impls config initial pathExists pid).final_outputs = some fo ∧
      (∀ k, fo.data k = orElseO
        (producedBy (fun o => o.data)
          (executePipeline reg impls config initial pathExists pid).task_executions k)
        ((seedInitialInputs pathExists initial).data k)) ∧
      (∀ k, fo.files k = orElseO
        (producedBy (fun o => o.files)
          (executePipeline reg impls config initial pathExists pid).task_executions k)
        ((seedInitialInputs pathExists initial).files k)) ∧
      (∀ k, fo.metadata k = orElseO
        (producedBy (fun o => o.metadata)
          (executePipeline reg impls config initial pathExists pid).task_executions k)
        ((seedInitialInputs pathExists initial).metadata k))) := by
  rw [executePipeline_ok_eq reg impls config initial pathExists pid order hres] at hall ⊢
  cases hfail : (runTasks reg impls config.tasks order (seedInitialInputs pathExists initial)).2.1 with
  | some msg =>
    exfalso
    rw [hfail] at hall
    obtain ⟨done, t, rest2, te, _, _, _, hlast, hst, _, _⟩ :=
      runTasks_fail_spec reg impls config.tasks order (seedInitialInputs pathExists initial)
        msg hfail
    have hmem := mem_of_getLast? hlast
    have hcomp := hall (t, te) hmem
    simp only at hcomp
    rw [hcomp] at hst
    exact absurd hst (by simp)
  | none =>
    obtain ⟨h1, _, h3, h4, h5⟩ :=
      runTasks_success_spec reg impls config.tasks order (seedInitialInputs pathExists initial)
        hfail
    exact ⟨rfl, h1, resolve_ok_nodup hres, _, rfl, h3, h4, h5⟩

/-- Claim C4: if some recorded execution failed (equivalently: the tasks up
to some N-th resolved task ran with the N-th failing), the pipeline is FAILED, the recorded executions are exactly the
resolved tasks up to and including the first failing one (N entries for
tasks 1..N), all earlier ones COMPLETED, and the pipeline error message
names the failing task id. -/
theorem executePipeline_task_failure (reg : Registry) (impls : Id → TaskImpl)
    (config : PipelineConfig) (initial : List (String × PyVal))
    (pathExists : String → Bool) (pid : String) (order : List Id)
    (hres : resolve_dependencies reg (config.tasks.map (·.task_id)) = .ok order)
    (hfail : ∃ e ∈ (executePipeline reg impls config initial pathExists pid).task_executions,
      e.2.status = .failed) :
    (executePipeline reg impls config initial pathExists pid).status = .failed ∧
    ∃ done t rest te,
      order = done ++ t :: rest ∧
      (executePipeline reg impls config initial pathExists pid).task_executions.map (·.1)
        = done ++ [t] ∧
      (executePipeline reg impls config initial pathExists pid).task_executions.map (·.1)
        = order.take (done.length + 1) ∧
      (∀ e ∈ (executePipeline reg impls config initial pathExists pid).task_executions.dropLast,
        e.2.status = .completed) ∧
      (executePipeline reg impls config initial pathExists pid).task_executions.getLast?
        = some (t, te) ∧
      te.status = .failed ∧
      (executePipeline reg impls config initial pathExists pid).error_message
        = some ("Task '" ++ t ++ "' failed: " ++ optionStr te.error_message) ∧
      (∃ pre suf, "Task '" ++ t ++ "' failed: " ++ optionStr te.error_message
        = pre ++ t ++ suf) := by
  rw [executePipeline_ok_eq reg impls config initial pathExists pid order hres] at hfail ⊢
  cases hm : (runTasks reg impls config.tasks order (seedInitialInputs pathExists initial)).2.1 with
  | none =>
    exfalso
    rw [hm] at hfail
    obtain ⟨_, h2, _, _, _⟩ :=
      runTasks_success_spec reg impls config.tasks order (seedInitialInputs pathExists initial) hm
    obtain ⟨e, he, hest⟩ := hfail
    exact absurd hest (h2 e he)
  | some msg =>
    obtain ⟨done, t, rest2, te, hsp, hmap, hdrop, hlast, hst, hmsg, hdicho⟩ :=
      runTasks_fail_spec reg impls config.tasks order (seedInitialInputs pathExists initial)
        msg hm
    have htake : order.take (done.length + 1) = done ++ [t] := by
      rw [hsp, List.take_append_eq_append_take]
      simp
    refine ⟨rfl, done, t, rest2, te, hsp, hmap, by rw [hmap, htake], ?_, hlast, hst,
      by rw [hmsg], ⟨"Task '", "' failed: " ++ optionStr te.error_message, by rw [String.append_assoc]⟩⟩
    intro e he
    rcases hdicho e (List.dropLast_sublist _ |>.mem he) with hc | hcf
    · exact hc
    · exact absurd hcf (hdrop e he)

/-- Task implementation for the executor witnesses: accepts all inputs and
emits `data["foo"] = "bar"`. -/
def okImplW : TaskImpl :=
  { validate := fun _ => true
    run := fun _ => .ok (Carrier.empty.add_data "foo" (.str "bar"))
    setupErr := none
    cleanupErr := none }

/-- Pipeline configuration requesting the single task `a` (whose dependency
`b` is pulled in by resolution). -/
def cfgW : PipelineConfig := { name := "p", description := "d", tasks := [{ task_id := "a" }] }

/-- The all-success witness run (both tasks succeed). -/
def runC3 : PipelineResult := executePipeline regW (fun _ => okImplW) cfgW [] (fun _ => false) "pid"

/-- Witness for C3: a concrete two-task run where both tasks succeed. -/
theorem executePipeline_all_success_witness :
    (resolve_dependencies regW (cfgW.tasks.map (·.task_id)) = .ok ["b", "a"]) ∧
    (∀ e ∈ runC3.task_executions, e.2.status = .completed) ∧
    (runC3.status = .completed ∧
     runC3.task_executions.map (·.1) = ["b", "a"] ∧
     (["b", "a"] : List Id).Nodup ∧
     (∃ fo, runC3.final_outputs = some fo ∧
       (∀ k, fo.data k = orElseO (producedBy (fun o => o.data) runC3.task_executions k)
         ((seedInitialInputs (fun _ => false) []).data k)) ∧
       (∀ k, fo.files k = orElseO (producedBy (fun o => o.files) runC3.task_executions k)
         ((seedInitialInputs (fun _ => false) []).files k)) ∧
       (∀ k, fo.metadata k = orElseO (producedBy (fun o => o.metadata) runC3.task_executions k)
         ((seedInitialInputs (fun _ => false) []).metadata k)))) := by
  have hres : resolve_dependencies regW (cfgW.tasks.map (·.task_id)) = .ok ["b", "a"] := rfl
  have hall : ∀ e ∈ runC3.task_executions, e.2.status = .completed := by decide
  exact ⟨hres, hall,
    executePipeline_all_success regW (fun _ => okImplW) cfgW [] (fun _ => false) "pid"
      ["b", "a"] hres hall⟩

/-- Implementation failing `execute` with message "boom". -/
def failImplW : TaskImpl :=
  { validate := fun _ => true
    run := fun _ => .error "boom"
    setupErr := none
    cleanupErr := none }

/-- Implementations for the C4 witness: dependency `b` succeeds, requested
task `a` fails. -/
def implsC4 : Id → TaskImpl := fun t => if t = "a" then failImplW else okImplW

/-- The witness run with a failing second task. -/
def runC4 : PipelineResult := executePipeline regW implsC4 cfgW [] (fun _ => false) "pid"

/-- Witness for C4: a concrete run where the second resolved task fails. -/
theorem executePipeline_task_failure_witness :
    (resolve_dependencies regW (cfgW.tasks.map (·.task_id)) = .ok ["b", "a"]) ∧
    (∃ e ∈ runC4.task_executions, e.2.status = .failed) ∧
    (runC4.status = .failed ∧
     ∃ done t rest te,
       (["b", "a"] : List Id) = done ++ t :: rest ∧
       runC4.task_executions.map (·.1) = done ++ [t] ∧
       runC4.task_executions.map (·.1) = (["b", "a"] : List Id).take (done.length + 1) ∧
       (∀ e ∈ runC4.task_executions.dropLast, e.2.status = .completed) ∧
       runC4.task_executions.getLast? = some (t, te) ∧
       te.status = .failed ∧
       runC4.error_message = some ("Task '" ++ t ++ "' failed: " ++ optionStr te.error_message) ∧
       (∃ pre suf, "Task '" ++ t ++ "' failed: " ++ optionStr te.error_message
         = pre ++ t ++ suf)) := by
  have hres : resolve_dependencies regW (cfgW.tasks.map (·.task_id)) = .ok ["b", "a"] := rfl
  have hfail : ∃ e ∈ runC4.task_executions, e.2.status = .failed := by decide
  exact ⟨hres, hfail,
    executePipeline_task_failure regW implsC4 cfgW [] (fun _ => false) "pid"
      ["b", "a"] hres hfail⟩

/-! ### Claims C6, C7 and C9 -/

/-- Single-task registry for the execution-level claims. -/
def regT : Registry := [("t", ⟨[], []⟩)]

/-- Implementation whose `execute` succeeds but whose `cleanup` raises. -/
def cleanupFailImpl : TaskImpl :=
  { validate := fun _ => true
    run := fun _ => .ok Carrier.empty
    setupErr := none
    cleanupErr := some "cleanup boom" }

/-- Counterexample to C6 as stated: a task whose `execute` succeeds (its
outputs are recorded) but whose `cleanup` raises is recorded FAILED with
the cleanup message — the cleanup failure overrides the task's own
successful outcome instead of being merely logged. -/
theorem execTask_cleanup_override_counterexample :
    cleanupFailImpl.run (prepareTaskInputs ⟨[], []⟩ { task_id := "t" } Carrier.empty)
      = .ok Carrier.empty ∧
    (execTask regT (fun _ => cleanupFailImpl) { task_id := "t" } Carrier.empty).outputs
      = some Carrier.empty ∧
    (execTask regT (fun _ => cleanupFailImpl) { task_id := "t" } Carrier.empty).status
      = .failed ∧
    (execTask regT (fun _ => cleanupFailImpl) { task_id := "t" } Carrier.empty).error_message
      = some "cleanup boom" :=
  ⟨rfl, rfl, rfl, rfl⟩

/-- C6 as amended: a `cleanup()` failure is not suppressed — the exception
propagates out of the `finally` block, so `_execute_task` records the task
FAILED with the cleanup error message regardless of `execute`'s own
outcome; when `execute` succeeded, its outputs are still recorded. -/
theorem execTask_cleanup_failure (reg : Registry) (impls : Id → TaskImpl)
    (config : TaskConfig) (avail : Carrier) (m : TaskMeta) (ce : String)
    (hm : lookupMeta reg config.task_id = some m)
    (hv : (impls config.task_id).validate (prepareTaskInputs m config avail) = true)
    (hs : (impls config.task_id).setupErr = none)
    (hc : (impls config.task_id).cleanupErr = some ce) :
    (execTask reg impls config avail).status = .failed ∧
    (execTask reg impls config avail).error_message = some ce ∧
    (∀ outs, (impls config.task_id).run (prepareTaskInputs m config avail) = .ok outs →
      (execTask reg impls config avail).outputs = some outs) := by
  simp only [execTask, hm, hv, hs, hc]
  rw [if_neg (by simp : ¬ (true = false))]
  cases hr : (impls config.task_id).run (prepareTaskInputs m config avail) with
  | ok outs =>
    simp only [hr]
    refine ⟨by trivial, by trivial, fun o ho => ?_⟩
    cases ho
    rfl
  | error e =>
    simp only [hr]
    refine ⟨by trivial, by trivial, fun o ho => ?_⟩
    simp at ho

/-- Witness for the amended C6 at a concrete task. -/
theorem execTask_cleanup_failure_witness :
    lookupMeta regT "t" = some ⟨[], []⟩ ∧
    cleanupFailImpl.validate (prepareTaskInputs ⟨[], []⟩ { task_id := "t" } Carrier.empty)
      = true ∧
    cleanupFailImpl.setupErr = none ∧
    cleanupFailImpl.cleanupErr = some "cleanup boom" ∧
    ((execTask regT (fun _ => cleanupFailImpl) { task_id := "t" } Carrier.empty).status
        = .failed ∧
     (execTask regT (fun _ => cleanupFailImpl) { task_id := "t" } Carrier.empty).error_message
        = some "cleanup boom" ∧
     (∀ outs, cleanupFailImpl.run (prepareTaskInputs ⟨[], []⟩ { task_id := "t" } Carrier.empty)
        = .ok outs →
       (execTask regT (fun _ => cleanupFailImpl) { task_id := "t" } Carrier.empty).outputs
        = some outs)) :=
  ⟨rfl, rfl, rfl, rfl,
    execTask_cleanup_failure regT (fun _ => cleanupFailImpl) { task_id := "t" }
      Carrier.empty ⟨[], []⟩ "cleanup boom" rfl rfl rfl rfl⟩

/-- Configuration naming an unregistered task. -/
def cfgZ : PipelineConfig := { name := "p", description := "d", tasks := [{ task_id := "z" }] }

/-- Counterexample to C7 as stated: when dependency resolution fails before
any task runs, `execute_pipeline` still creates and returns a
`PipelineResult` (status FAILED, no executions) — the result object is
constructed before resolution and the outer `except` returns it. -/
theorem executePipeline_preresult_counterexample :
    resolve_dependencies ([] : Registry) (cfgZ.tasks.map (·.task_id))
      = .error (.notRegistered "z") ∧
    (executePipeline [] (fun _ => okImplW) cfgZ [] (fun _ => false) "pid").status = .failed ∧
    (executePipeline [] (fun _ => okImplW) cfgZ [] (fun _ => false) "pid").task_executions
      = [] ∧
    (executePipeline [] (fun _ => okImplW) cfgZ [] (fun _ => false) "pid").error_message
      = some (resolveErrMsg (.notRegistered "z")) :=
  ⟨rfl, rfl, rfl, rfl⟩

/-- C7 as amended: a registry/validation error discovered before any task
runs (a resolution failure) does not abort without a result; instead the
already-created `PipelineResult` is returned with status FAILED, the
resolution error message, no task executions and no final outputs. -/
theorem executePipeline_resolve_error (reg : Registry) (impls : Id → TaskImpl)
    (config : PipelineConfig) (initial : List (String × PyVal))
    (pathExists : String → Bool) (pid : String) (e : ResolveErr)
    (he : resolve_dependencies reg (config.tasks.map (·.task_id)) = .error e) :
    (executePipeline reg impls config initial pathExists pid).status = .failed ∧
    (executePipeline reg impls config initial pathExists pid).task_executions = [] ∧
    (executePipeline reg impls config initial pathExists pid).error_message
      = some (resolveErrMsg e) ∧
    (executePipeline reg impls config initial pathExists pid).final_outputs = none := by
  rw [executePipeline, he]
  exact ⟨rfl, rfl, rfl, rfl⟩

/-- Witness for the amended C7 at the concrete unregistered-task config. -/
theorem executePipeline_resolve_error_witness :
    resolve_dependencies ([] : Registry) (cfgZ.tasks.map (·.task_id))
      = .error (.notRegistered "z") ∧
    ((executePipeline [] (fun _ => okImplW) cfgZ [] (fun _ => true) "pid").status = .failed ∧
     (executePipeline [] (fun _ => okImplW) cfgZ [] (fun _ => true) "pid").task_executions
       = [] ∧
     (executePipeline [] (fun _ => okImplW) cfgZ [] (fun _ => true) "pid").error_message
       = some (resolveErrMsg (.notRegistered "z")) ∧
     (executePipeline [] (fun _ => okImplW) cfgZ [] (fun _ => true) "pid").final_outputs
       = none) :=
  ⟨rfl, executePipeline_resolve_error [] (fun _ => okImplW) cfgZ [] (fun _ => true) "pid"
    (.notRegistered "z") rfl⟩

/-- Claim C9: a task declaring no input types and keeping the default
`validate_inputs` rejects every possible input carrier, so the executor
marks it FAILED with the invalid-inputs error on every run. -/
theorem default_validate_empty_types_fails (reg : Registry) (impls : Id → TaskImpl)
    (config : TaskConfig) (avail : Carrier) (m : TaskMeta)
    (hm : lookupMeta reg config.task_id = some m)
    (hempty : m.input_types = [])
    (hv : (impls config.task_id).validate = validate_inputs_default m.input_types) :
    (∀ inputs, validate_inputs_default m.input_types inputs = false) ∧
    (execTask reg impls config avail).status = .failed ∧
    (execTask reg impls config avail).error_message
      = some ("Invalid inputs for task " ++ config.task_id) := by
  have hfalse : ∀ inputs, validate_inputs_default m.input_types inputs = false := by
    intro inputs
    rw [hempty]
    rfl
  refine ⟨hfalse, ?_⟩
  simp only [execTask, hm, hv, hfalse]
  exact ⟨rfl, rfl⟩

/-- Implementation keeping the default `validate_inputs` over an empty
input-type list. -/
def defaultValidateImpl : TaskImpl :=
  { validate := validate_inputs_default ([] : List String)
    run := fun _ => .ok Carrier.empty
    setupErr := none
    cleanupErr := none }

/-- Witness for C9 at a concrete task with empty `input_types`. -/
theorem default_validate_empty_types_fails_witness :
    lookupMeta regT "t" = some ⟨[], []⟩ ∧
    (⟨[], []⟩ : TaskMeta).input_types = [] ∧
    defaultValidateImpl.validate = validate_inputs_default (⟨[], []⟩ : TaskMeta).input_types ∧
    ((∀ inputs, validate_inputs_default (⟨[], []⟩ : TaskMeta).input_types inputs = false) ∧
     (execTask regT (fun _ => defaultValidateImpl) { task_id := "t" } Carrier.empty).status
       = .failed ∧
     (execTask regT (fun _ => defaultValidateImpl) { task_id := "t" } Carrier.empty).error_message
       = some ("Invalid inputs for task " ++ "t")) :=
  ⟨rfl, rfl, rfl,
    default_validate_empty_types_fails regT (fun _ => defaultValidateImpl) { task_id := "t" }
      Carrier.empty ⟨[], []⟩ rfl rfl rfl⟩

/-! ### Claims C5 and C10: configured `$`-reference resolution -/

theorem resolveConfiguredInputs_cons (key : String) (value : PyVal)
    (rest : List (String × PyVal)) (avail acc : Carrier) :
    resolveConfiguredInputs ((key, value) :: rest) avail acc
      = resolveConfiguredInputs rest avail
          (resolveConfiguredInputs [(key, value)] avail acc) := rfl

theorem resolveConfiguredInputs_append (l1 l2 : List (String × PyVal)) (avail : Carrier) :
    ∀ acc, resolveConfiguredInputs (l1 ++ l2) avail acc
      = resolveConfiguredInputs l2 avail (resolveConfiguredInputs l1 avail acc) := by
  induction l1 with
  | nil => intro acc; rfl
  | cons e rest ih =>
    intro acc
    obtain ⟨key, value⟩ := e
    rw [List.cons_append, resolveConfiguredInputs_cons, resolveConfiguredInputs_cons, ih]
    rfl

/-- A reference whose key is found in the data map binds from `data`. -/
theorem resolveRef_data (avail acc : Carrier) (k s : String) (cs : List Char) (v : PyVal)
    (hs : s.data = '$' :: cs) (hd : avail.data (String.mk cs) = some v) :
    resolveConfiguredInputs [(k, PyVal.str s)] avail acc = acc.add_data k v := by
  simp [resolveConfiguredInputs, hs, hd]

/-- A reference found only in the files map binds from `files`. -/
theorem resolveRef_file (avail acc : Carrier) (k s : String) (cs : List Char) (f : String)
    (hs : s.data = '$' :: cs) (hd : avail.data (String.mk cs) = none)
    (hf : avail.files (String.mk cs) = some f) :
    resolveConfiguredInputs [(k, PyVal.str s)] avail acc = acc.add_file k f := by
  simp [resolveConfiguredInputs, hs, hd, hf]

/-- A reference to an unproduced key contributes nothing. -/
theorem resolveRef_none (avail acc : Carrier) (k s : String) (cs : List Char)
    (hs : s.data = '$' :: cs) (hd : avail.data (String.mk cs) = none)
    (hf : avail.files (String.mk cs) = none) :
    resolveConfiguredInputs [(k, PyVal.str s)] avail acc = acc := by
  simp [resolveConfiguredInputs, hs, hd, hf]

/-- Resolving one configured entry never touches another key. -/
theorem resolveOne_untouched (avail acc : Carrier) (key : String) (value : PyVal)
    (k : String) (hne : ¬ k = key) :
    (resolveConfiguredInputs [(key, value)] avail acc).data k = acc.data k ∧
    (resolveConfiguredInputs [(key, value)] avail acc).files k = acc.files k := by
  cases value with
  | str s =>
    cases hsd : s.data with
    | nil => simp [resolveConfiguredInputs, hsd, Carrier.add_data, hne]
    | cons c cs =>
      by_cases hc : c = '$'
      · subst hc
        cases hd : avail.data (String.mk cs) with
        | some v => simp [resolveConfiguredInputs, hsd, hd, Carrier.add_data, hne]
        | none =>
          cases hf : avail.files (String.mk cs) with
          | some f => simp [resolveConfiguredInputs, hsd, hd, hf, Carrier.add_file, hne]
          | none => simp [resolveConfiguredInputs, hsd, hd, hf]
      · simp [resolveConfiguredInputs, hsd, hc, Carrier.add_data, hne]
  | other n => simp [resolveConfiguredInputs, Carrier.add_data, hne]

/-- Resolving configured entries whose keys avoid `k` leaves `k`
untouched. -/
theorem resolveConfiguredInputs_untouched (avail : Carrier) (k : String) :
    ∀ (l : List (String × PyVal)) (acc : Carrier), k ∉ l.map (·.1) →
    (resolveConfiguredInputs l avail acc).data k = acc.data k ∧
    (resolveConfiguredInputs l avail acc).files k = acc.files k := by
  intro l
  induction l with
  | nil => intro acc _; exact ⟨rfl, rfl⟩
  | cons e rest ih =>
    intro acc hk
    obtain ⟨key, value⟩ := e
    simp only [List.map_cons, List.mem_cons] at hk
    push_neg at hk
    rw [resolveConfiguredInputs_cons]
    obtain ⟨h1, h2⟩ := resolveOne_untouched avail acc key value k hk.1
    obtain ⟨h3, h4⟩ := ih _ hk.2
    exact ⟨h3.trans h1, h4.trans h2⟩

theorem nodup_keys_split {pre post : List (String × PyVal)} {k : String} {v : PyVal}
    (hnd : ((pre ++ (k, v) :: post).map (·.1)).Nodup) :
    k ∉ pre.map (·.1) ∧ k ∉ post.map (·.1) := by
  rw [List.map_append, List.map_cons] at hnd
  rw [List.nodup_append] at hnd
  refine ⟨fun hk => hnd.2.2 hk (List.mem_cons_self _ _), ?_⟩
  have := hnd.2.1
  rw [List.nodup_cons] at this
  exact this.1

/-- Claim C5: a configured input `(k, "$x")` (with `x` the reference string
minus the `$`) resolves against the current available outputs — to the data
entry if present, else to the files entry; an unproduced key makes the
entry contribute nothing at all (the whole input preparation is the same as
if the entry were absent), with no error.  The "most recently merged value
wins" clause is the overriding merge of task outputs into the available
outputs. -/
theorem configuredReference_resolution (avail : Carrier) (pre post : List (String × PyVal))
    (k s : String) (cs : List Char) (m : TaskMeta) (config : TaskConfig)
    (hs : s.data = '$' :: cs)
    (hnd : ((pre ++ (k, PyVal.str s) :: post).map (·.1)).Nodup) :
    (∀ v, avail.data (String.mk cs) = some v →
      (resolveConfiguredInputs (pre ++ (k, PyVal.str s) :: post) avail Carrier.empty).data k
        = some v) ∧
    (avail.data (String.mk cs) = none → ∀ f, avail.files (String.mk cs) = some f →
      (resolveConfiguredInputs (pre ++ (k, PyVal.str s) :: post) avail Carrier.empty).files k
        = some f) ∧
    (avail.data (String.mk cs) = none → avail.files (String.mk cs) = none →
      prepareTaskInputs m { config with inputs := pre ++ (k, PyVal.str s) :: post } avail
        = prepareTaskInputs m { config with inputs := pre ++ post } avail) ∧
    (∀ (base o : Carrier) (x : String),
      (mergeOutputs base (some o)).data x = orElseO (o.data x) (base.data x) ∧
      (mergeOutputs base (some o)).files x = orElseO (o.files x) (base.files x)) := by
  obtain ⟨hpre, hpost⟩ := nodup_keys_split hnd
  refine ⟨?_, ?_, ?_, ?_⟩
  · intro v hd
    rw [resolveConfiguredInputs_append, resolveConfiguredInputs_cons,
      resolveRef_data avail _ k s cs v hs hd]
    rw [(resolveConfiguredInputs_untouched avail k post _ hpost).1]
    simp [Carrier.add_data]
  · intro hd f hf
    rw [resolveConfiguredInputs_append, resolveConfiguredInputs_cons,
      resolveRef_file avail _ k s cs f hs hd hf]
    rw [(resolveConfiguredInputs_untouched avail k post _ hpost).2]
    simp [Carrier.add_file]
  · intro hd hf
    unfold prepareTaskInputs
    rw [resolveConfiguredInputs_append, resolveConfiguredInputs_cons,
      resolveRef_none avail _ k s cs hs hd hf, resolveConfiguredInputs_append]
  · intro base o x
    constructor
    · rw [mergeOutputs_data]
      rfl
    · rw [mergeOutputs_files]
      rfl

/-- Witness carrier for C5/C10: `x` present in both data and files. -/
def availW : Carrier :=
  (Carrier.empty.add_data "x" (.str "dval")).add_file "x" "fpath"

/-- Witness for C5 at a concrete configuration. -/
theorem configuredReference_resolution_witness :
    (("$x" : String).data = '$' :: ['x']) ∧
    ((([((" pre" : String), PyVal.other 0), ("k", PyVal.str "$x")]).map (·.1)).Nodup) ∧
    ((∀ v, availW.data (String.mk ['x']) = some v →
      (resolveConfiguredInputs [(" pre", PyVal.other 0), ("k", PyVal.str "$x")] availW
        Carrier.empty).data "k" = some v) ∧
     (availW.data (String.mk ['x']) = none → ∀ f, availW.files (String.mk ['x']) = some f →
      (resolveConfiguredInputs [(" pre", PyVal.other 0), ("k", PyVal.str "$x")] availW
        Carrier.empty).files "k" = some f) ∧
     (availW.data (String.mk ['x']) = none → availW.files (String.mk ['x']) = none →
      prepareTaskInputs ⟨[], []⟩
          { task_id := "t", inputs := [(" pre", PyVal.other 0), ("k", PyVal.str "$x")] } availW
        = prepareTaskInputs ⟨[], []⟩
          { task_id := "t", inputs := [(" pre", PyVal.other 0)] } availW) ∧
     (∀ (base o : Carrier) (x : String),
      (mergeOutputs base (some o)).data x = orElseO (o.data x) (base.data x) ∧
      (mergeOutputs base (some o)).files x = orElseO (o.files x) (base.files x))) := by
  refine ⟨rfl, by decide, ?_⟩
  exact configuredReference_resolution availW [(" pre", PyVal.other 0)] [] "k" "$x" ['x']
    ⟨[], []⟩ { task_id := "t", inputs := [(" pre", PyVal.other 0)] } rfl (by decide)

/-- Claim C10: when the referenced key is present in both the data and the
files maps, resolution binds from `data` and the files entry is ignored
(the data map is checked first; no files binding is created for the
input). -/
theorem configuredReference_data_first (avail : Carrier) (pre post : List (String × PyVal))
    (k s : String) (cs : List Char) (v : PyVal) (f : String)
    (hs : s.data = '$' :: cs)
    (hnd : ((pre ++ (k, PyVal.str s) :: post).map (·.1)).Nodup)
    (hd : avail.data (String.mk cs) = some v)
    (_hf : avail.files (String.mk cs) = some f) :
    (resolveConfiguredInputs (pre ++ (k, PyVal.str s) :: post) avail Carrier.empty).data k
      = some v ∧
    (resolveConfiguredInputs (pre ++ (k, PyVal.str s) :: post) avail Carrier.empty).files k
      = none := by
  obtain ⟨hpre, hpost⟩ := nodup_keys_split hnd
  rw [resolveConfiguredInputs_append, resolveConfiguredInputs_cons,
    resolveRef_data avail _ k s cs v hs hd]
  obtain ⟨h1, h2⟩ := resolveConfiguredInputs_untouched avail k post
    ((resolveConfiguredInputs pre avail Carrier.empty).add_data k v) hpost
  refine ⟨by rw [h1]; simp [Carrier.add_data], ?_⟩
  rw [h2]
  have := (resolveConfiguredInputs_untouched avail k pre Carrier.empty hpre).2
  simp only [Carrier.add_data]
  rw [this]
  rfl

/-- Witness for C10: the reference `$x` with `x` in both maps binds the
data value and creates no files entry. -/
theorem configuredReference_data_first_witness :
    (("$x" : String).data = '$' :: ['x']) ∧
    availW.data (String.mk ['x']) = some (.str "dval") ∧
    availW.files (String.mk ['x']) = some "fpath" ∧
    ((resolveConfiguredInputs [("k", PyVal.str "$x")] availW Carrier.empty).data "k"
      = some (.str "dval") ∧
     (resolveConfiguredInputs [("k", PyVal.str "$x")] availW Carrier.empty).files "k"
      = none) := by
  refine ⟨rfl, by decide, by decide, ?_⟩
  exact configuredReference_data_first availW [] [] "k" "$x" ['x'] (.str "dval") "fpath"
    rfl (by decide) (by decide) (by decide)

/-! ### Pipeline storage (storage.py)

The JSON file written by `save_pipeline_result` is modelled by the
structured record passed to `json.dump`; reading it back recovers that
record.  `datetime.isoformat` / `datetime.fromisoformat` round-trip exactly
(microsecond precision), so on the modelled timestamp ticks serialization
is the identity. -/

/-- Serialized form of one configured task (storage.py lines 159-165). -/
structure SerTaskConfig where
  task_id : Id
  inputs : List (String × PyVal)
  settings : List (String × PyVal)

/-- Serialized configuration (storage.py lines 156-168). -/
structure SerConfig where
  name : String
  description : String
  tasks : List SerTaskConfig
  settings : List (String × PyVal)
  metadata : List (String × PyVal)

/-- Serialized task execution (storage.py lines 173-182). -/
structure SerTaskExecution where
  task_id : Id
  status : String
  start_time : Option Nat
  end_time : Option Nat
  error_message : Option String
  execution_metadata : List (String × PyVal)

/-- Serialized final outputs (storage.py lines 183-187); `str(path)` is the
identity on the string-modelled paths. -/
structure SerOutputs where
  data : String → Option PyVal
  files : String → Option String
  metadata : String → Option PyVal

/-- The record dumped to `result.json` by
`PipelineStorage._serialize_result` (storage.py lines 152-188). -/
structure SerResult where
  pipeline_id : String
  config : SerConfig
  status : String
  start_time : Nat
  end_time : Option Nat
  error_message : Option String
  task_executions : List (Id × SerTaskExecution)
  final_outputs : Option SerOutputs

/-- `PipelineStorage._serialize_result`. -/
def serialize_result (r : PipelineResult) : SerResult :=
  { pipeline_id := r.pipeline_id
    config :=
      { name := r.config.name
        description := r.config.description
        tasks := r.config.tasks.map (fun t => ⟨t.task_id, t.inputs, t.settings⟩)
        settings := r.config.settings
        metadata := r.config.metadata }
    status := r.status.value
    start_time := r.start_time
    end_time := r.end_time
    error_message := r.error_message
    task_executions := r.task_executions.map (fun p =>
      (p.1,
        { task_id := p.2.task_id
          status := p.2.status.value
          start_time := p.2.start_time
          end_time := p.2.end_time
          error_message := p.2.error_message
          execution_metadata := p.2.execution_metadata }))
    final_outputs := r.final_outputs.map (fun o => ⟨o.data, o.files, o.metadata⟩) }

/-- Restoring one task execution in `_deserialize_result` (storage.py lines
223-234): `TaskStatus(...)` raises (here: `none`) on an unknown status
string; the resolved-inputs and outputs snapshots are not restored. -/
def deserialize_exec (p : Id × SerTaskExecution) : Option (Id × TaskExecution) :=
  match TaskStatus.ofValue p.2.status with
  | none => none
  | some st =>
    some (p.1,
      { task_id := p.2.task_id
        status := st
        start_time := p.2.start_time
        end_time := p.2.end_time
        error_message := p.2.error_message
        execution_metadata := p.2.execution_metadata })

/-- `PipelineStorage._deserialize_result` (storage.py lines 190-236): the
config and top-level fields are restored, the task executions in order;
`final_outputs` is not restored (simplified deserialization). -/
def deserialize_result (s : SerResult) : Option PipelineResult :=
  match TaskStatus.ofValue s.status with
  | none => none
  | some st =>
    match s.task_executions.mapM deserialize_exec with
    | none => none
    | some execs =>
      some
        { pipeline_id := s.pipeline_id
          config :=
            { name := s.config.name
              description := s.config.description
              tasks := s.config.tasks.map (fun t =>
                { task_id := t.task_id, inputs := t.inputs, settings := t.settings })
              settings := s.config.settings
              metadata := s.config.metadata }
          status := st
          start_time := s.start_time
          end_time := s.end_time
          error_message := s.error_message
          task_executions := execs
          final_outputs := none }

theorem TaskStatus.ofValue_value (st : TaskStatus) :
    TaskStatus.ofValue st.value = some st := by
  cases st <;> rfl

/-- The shape of a restored task execution. -/
def restoreExec (e : TaskExecution) : TaskExecution :=
  { task_id := e.task_id
    status := e.status
    start_time := e.start_time
    end_time := e.end_time
    error_message := e.error_message
    execution_metadata := e.execution_metadata }

theorem mapM_deserialize_exec (l : List (Id × TaskExecution)) :
    (l.map (fun p => ((p.1 : Id),
      ({ task_id := p.2.task_id
         status := p.2.status.value
         start_time := p.2.start_time
         end_time := p.2.end_time
         error_message := p.2.error_message
         execution_metadata := p.2.execution_metadata } : SerTaskExecution)))).mapM
      deserialize_exec
      = some (l.map (fun p => (p.1, restoreExec p.2))) := by
  induction l with
  | nil => rfl
  | cons p t ih =>
    simp only [List.map_cons, List.mapM_cons, deserialize_exec, TaskStatus.ofValue_value, ih]
    rfl

/-- Claim C8: saving a pipeline result and loading it back by id reproduces
the pipeline status, the start and end timestamps, and, for every recorded
task execution, its id, status and timestamps. -/
theorem storage_roundtrip (r : PipelineResult) :
    ∃ r2, deserialize_result (serialize_result r) = some r2 ∧
      r2.status = r.status ∧
      r2.start_time = r.start_time ∧
      r2.end_time = r.end_time ∧
      r2.task_executions.map (fun p => (p.1, p.2.status))
        = r.task_executions.map (fun p => (p.1, p.2.status)) ∧
      r2.task_executions.map (fun p => (p.1, p.2.start_time, p.2.end_time))
        = r.task_executions.map (fun p => (p.1, p.2.start_time, p.2.end_time)) := by
  refine ⟨{ pipeline_id := r.pipeline_id
            config :=
              { name := r.config.name
                description := r.config.description
                tasks := r.config.tasks.map (fun t =>
                  { task_id := t.task_id, inputs := t.inputs, settings := t.settings })
                settings := r.config.settings
                metadata := r.config.metadata }
            status := r.status
            start_time := r.start_time
            end_time := r.end_time
            task_executions := r.task_executions.map (fun p => (p.1, restoreExec p.2))
            final_outputs := none
            error_message := r.error_message }, ?_, rfl, rfl, rfl, ?_, ?_⟩
  · unfold deserialize_result serialize_result
    simp only [TaskStatus.ofValue_value, mapM_deserialize_exec, List.map_map]
    rfl
  · simp only [List.map_map]
    rfl
  · simp only [List.map_map]
    rfl

end Pipeline
